import Mathlib

/-!
# comicglass-web: path confinement, directory listing and link building

A shallow embedding of `internal/server` (paths.go, filesystem.go, handlers.go,
errors.go).  Go strings are byte sequences and are modelled as lists of bytes.
The functions of the Go standard library the server calls (`filepath.Clean`,
`filepath.Join`, `filepath.Abs`, `filepath.Rel`, `strings.*`, `url.*Escape`) are
modelled for Unix (separator `/`, no volume names) after their documented
behaviour, on the `/`-separated elements of a path.
-/

namespace ComicGlass

/-! ## Strings -/

abbrev Byte := Fin 256

abbrev GoString := List Byte

/-- The bytes of an ASCII literal. -/
def ascii (s : String) : GoString := s.toList.map (fun c => Fin.ofNat c.toNat)

/-- The path separator `/` of `os.PathSeparator`. -/
def Separator : Byte := 47

/-- The string `"."`. -/
def dot : GoString := [46]

/-- The string `".."`. -/
def dotdot : GoString := [46, 46]

/-- Go's `strings.HasPrefix`. -/
def HasPrefix (s pre : GoString) : Bool := pre.isPrefixOf s

/-- Go's `strings.TrimPrefix`. -/
def TrimPrefix (s pre : GoString) : GoString :=
  if HasPrefix s pre then s.drop pre.length else s

/-- Go's `strings.Split(s, "/")`. -/
def Split (s : GoString) : List GoString := s.splitOn Separator

/-- Go's `strings.Join(parts, "/")`. -/
def joinSep (parts : List GoString) : GoString := [Separator].intercalate parts

/-! ## Errors (errors.go) -/

/-- Go `error` values: an `*httpError` with its fields `Status` (an `int`) and
`Message`, a file-system error for which `errors.Is(err, os.ErrNotExist)` holds, any
other error, or an error that wraps another one (`Unwrap`). -/
inductive GoError where
  | http (status : Int) (message : GoString)
  | notExist (text : GoString)
  | other (text : GoString)
  | wrap (text : GoString) (inner : GoError)
  deriving DecidableEq, Repr

deriving instance DecidableEq for Except

def StatusOK : Int := 200
def StatusBadRequest : Int := 400
def StatusInternalServerError : Int := 500

def errPathNotExist : GoError :=
  GoError.http StatusBadRequest (ascii "Path does not exist")

/-- The chain walk of `errors.As(err, &httpErr)`: the first `*httpError` of the chain. -/
def asHttpError : GoError → Option (Int × GoString)
  | GoError.http status message => some (status, message)
  | GoError.notExist _ => none
  | GoError.other _ => none
  | GoError.wrap _ inner => asHttpError inner

/-- The chain walk of `errors.Is(err, os.ErrNotExist)`. -/
def isNotExist : GoError → Bool
  | GoError.http _ _ => false
  | GoError.notExist _ => true
  | GoError.other _ => false
  | GoError.wrap _ inner => isNotExist inner

/-! ## path/filepath -/

/-- Whether `Clean` can remove the last element written so far when it meets `..`:
there is one and it is not part of a leading `../..` prefix. -/
def canBacktrack : List GoString → Bool
  | [] => false
  | top :: _ => top != dotdot

/-- One path element of `filepath.Clean`; `out` holds the elements written so far,
the last one first. -/
def cleanStep (rooted : Bool) (out : List GoString) (elem : GoString) : List GoString :=
  if elem = [] ∨ elem = dot then out
  else if elem = dotdot then
    if canBacktrack out then out.tail
    else if rooted then out
    else dotdot :: out
  else elem :: out

/-- The elements `filepath.Clean` keeps, in order. -/
def cleanElems (rooted : Bool) (elems : List GoString) : List GoString :=
  (elems.foldl (cleanStep rooted) []).reverse

/-- Go's `filepath.Clean`. -/
def Clean (path : GoString) : GoString :=
  if path = [] then dot
  else
    let rooted := path.head? = some Separator
    let body := joinSep (cleanElems rooted (Split path))
    if rooted then Separator :: body
    else if body = [] then dot else body

/-- Go's `filepath.Join`: empty leading elements are ignored, the rest is joined
with `/` and cleaned. -/
def Join (elem : List GoString) : GoString :=
  match elem.dropWhile (fun e => e = []) with
  | [] => []
  | rest => Clean (joinSep rest)

/-- Go's `filepath.IsAbs` on Unix. -/
def IsAbs (path : GoString) : Bool := HasPrefix path [Separator]

/-- Go's `filepath.Abs`; `getwd` is the result of `os.Getwd`. -/
def Abs (getwd : Except GoError GoString) (path : GoString) : Except GoError GoString :=
  if IsAbs path then Except.ok (Clean path)
  else
    match getwd with
    | Except.error err => Except.error err
    | Except.ok wd => Except.ok (Join [wd, path])

/-- The elements of a cleaned path after its leading separator, if it has one. -/
def relElems (p : GoString) : List GoString :=
  let q := if p.head? = some Separator then p.tail else p
  if q = [] then [] else Split q

/-- The element loop of `filepath.Rel`: skips the common leading elements and
returns what is left of base and target, and whether the loop stopped at a base
element `..` that differs from the target's. -/
def relLoop : List GoString → List GoString → List GoString × List GoString × Bool
  | b :: bs, t :: ts =>
    if t = b then relLoop bs ts else (b :: bs, t :: ts, b = dotdot)
  | bs, ts => (bs, ts, false)

/-- Go's `filepath.Rel`. -/
def Rel (basepath targpath : GoString) : Except GoError GoString :=
  let base := Clean basepath
  let targ := Clean targpath
  if targ = base then Except.ok dot
  else
    let base := if base = dot then [] else base
    let baseSlashed := base.head? = some Separator
    let targSlashed := targ.head? = some Separator
    if baseSlashed ≠ targSlashed then
      Except.error (GoError.other (ascii "Rel: can't make " ++ targpath ++ ascii " relative to " ++ basepath))
    else
      match relLoop (relElems base) (relElems targ) with
      | (bs, ts, stoppedAtDotDot) =>
        if stoppedAtDotDot then
          Except.error (GoError.other (ascii "Rel: can't make " ++ targpath ++ ascii " relative to " ++ basepath))
        else if bs ≠ [] then
          Except.ok (joinSep (bs.map (fun _ => dotdot) ++ ts))
        else Except.ok (joinSep ts)

/-- Go's `filepath.ToSlash` on Unix, where the separator is already `/`. -/
def ToSlash (path : GoString) : GoString := path

/-! ## The server (server.go, paths.go) -/

/-- The fields of `Server` the handlers read. -/
structure Server where
  absoluteRoot : GoString
  allowedExts : List GoString

/-- The method `(*Server).isWithinRoot` of paths.go. -/
def isWithinRoot (getwd : Except GoError GoString) (s : Server) (target : GoString) :
    Except GoError Bool :=
  match Abs getwd target with
  | Except.error err => Except.error err
  | Except.ok absTarget =>
    match Rel s.absoluteRoot absTarget with
    | Except.error err => Except.error err
    | Except.ok rel =>
      if rel = dot then Except.ok true
      else Except.ok (!HasPrefix rel dotdot)

/-- The method `(*Server).resolvePath` of paths.go. -/
def resolvePath (getwd : Except GoError GoString) (s : Server) (rel : GoString) :
    Except GoError GoString :=
  let cleaned := Clean rel
  if cleaned = dot then Except.ok s.absoluteRoot
  else
    let candidate := Join [s.absoluteRoot, cleaned]
    match isWithinRoot getwd s candidate with
    | Except.error err => Except.error err
    | Except.ok withinRoot =>
      if !withinRoot then Except.error errPathNotExist
      else Except.ok candidate


/-! ## strings, unicode and sort: the parts taken as parameters -/

/-- The entry type of filesystem.go. -/
structure fileEntry where
  Name : GoString
  RelativePath : GoString
  ModifyTime : Int
  Size : Int
  IsDir : Bool
  deriving DecidableEq, Repr

/-- The parts of the Go standard library that depend on the Unicode tables or on
an unspecified algorithm, taken as parameters:
`mapToLower s` is `strings.Map(unicode.ToLower, s)`, the path `strings.ToLower` takes
for a string with a non-ASCII byte; `trimFuncSpace s` is
`strings.TrimFunc(s, unicode.IsSpace)` and `trimRightFuncSpace s` is
`strings.TrimRightFunc(s, unicode.IsSpace)`, the paths `strings.TrimSpace` takes when
it meets a non-ASCII byte; `sortSlice less xs` is the slice after
`sort.Slice(xs, less)`, which is not guaranteed to be stable. -/
structure GoLib where
  mapToLower : GoString → GoString
  trimFuncSpace : GoString → GoString
  trimRightFuncSpace : GoString → GoString
  sortSlice : (fileEntry → fileEntry → Bool) → List fileEntry → List fileEntry

/-- The documented contract of `sort.Slice`: for a `less` that is a strict weak
ordering, the result is a rearrangement of the slice in which no element is less
than an element before it. -/
def SortContract (sortSlice : (fileEntry → fileEntry → Bool) → List fileEntry → List fileEntry) :
    Prop :=
  ∀ less : fileEntry → fileEntry → Bool,
    (∀ a b, less a b = true → less b a = false) →
    (∀ a b c, less a c = true → less a b = true ∨ less b c = true) →
    ∀ xs, (sortSlice less xs).Perm xs ∧
      (sortSlice less xs).Pairwise (fun a b => less b a = false)

/-- The ASCII branch of `unicode.ToLower`. -/
def asciiLower (c : Byte) : Byte :=
  if 65 ≤ c.val ∧ c.val ≤ 90 then c + 32 else c

/-- What is asked of `strings.Map(unicode.ToLower, ·)`: the case of ASCII letters in
its argument does not matter. -/
def LowerIgnoresAsciiCase (mapToLower : GoString → GoString) : Prop :=
  ∀ s t : GoString, s.map asciiLower = t.map asciiLower → mapToLower s = mapToLower t

/-- Go's `strings.ToLower`: ASCII strings are lowered byte by byte, any other string
goes through `strings.Map(unicode.ToLower, s)`. -/
def ToLower (lib : GoLib) (s : GoString) : GoString :=
  if s.all (fun c => decide (c.val < 128)) then s.map asciiLower else lib.mapToLower s

/-- The table `asciiSpace` of package strings. -/
def isAsciiSpace (c : Byte) : Bool :=
  decide (c = 9 ∨ c = 10 ∨ c = 11 ∨ c = 12 ∨ c = 13 ∨ c = 32)

/-- The second loop of `strings.TrimSpace`, over the reversed string. -/
def trimSpaceEnd (lib : GoLib) : List Byte → GoString
  | [] => []
  | c :: rest =>
    if 128 ≤ c.val then lib.trimRightFuncSpace (c :: rest).reverse
    else if isAsciiSpace c then trimSpaceEnd lib rest
    else (c :: rest).reverse

/-- Go's `strings.TrimSpace`. -/
def TrimSpace (lib : GoLib) : GoString → GoString
  | [] => []
  | c :: rest =>
    if 128 ≤ c.val then lib.trimFuncSpace (c :: rest)
    else if isAsciiSpace c then TrimSpace lib rest
    else trimSpaceEnd lib (c :: rest).reverse

/-- Go's comparison `left < right` of strings: byte-wise lexical order. -/
def strLess : GoString → GoString → Bool
  | [], [] => false
  | [], _ :: _ => true
  | _ :: _, [] => false
  | a :: as, b :: bs => if a < b then true else if b < a then false else strLess as bs

/-! ## The file system -/

/-- What the handlers read of an `fs.FileInfo`. -/
structure FileInfo where
  modTime : Int
  size : Int
  isRegular : Bool
  isDir : Bool
  deriving DecidableEq, Repr

/-- What `listEntries` reads of an `fs.DirEntry`: `Name()`, `IsDir()` and `Info()`. -/
structure DirEntry where
  name : GoString
  isDir : Bool
  info : Except GoError FileInfo
  deriving DecidableEq

/-- The operating system as the server sees it: `os.Getwd`, `os.Stat`, `os.ReadDir`. -/
structure OS where
  getwd : Except GoError GoString
  stat : GoString → Except GoError FileInfo
  readDir : GoString → Except GoError (List DirEntry)

/-! ## filesystem.go -/

def defaultExtensions : List GoString :=
  [ascii "gif", ascii "png", ascii "jpg", ascii "jpeg", ascii "tif", ascii "tiff",
   ascii "zip", ascii "rar", ascii "cbz", ascii "cbr", ascii "bmp", ascii "pdf", ascii "cgt"]

/-- The set built by `defaultAllowedExtSet`; a `map[string]struct{}` is modelled by
the list of its keys. -/
def defaultAllowedExtSet : List GoString := defaultExtensions

/-- The backwards scan of `filepath.Ext` over the reversed path; `suffix` is the part
of the path already passed. -/
def extScan : List Byte → GoString → GoString
  | [], _ => []
  | c :: rest, suffix =>
    if c = Separator then []
    else if c = 46 then c :: suffix
    else extScan rest (c :: suffix)

/-- Go's `filepath.Ext`. -/
def Ext (path : GoString) : GoString := extScan path.reverse []

/-- The method `(*Server).isAllowedExtension` of filesystem.go. -/
def isAllowedExtension (lib : GoLib) (s : Server) (name : GoString) : Bool :=
  let ext := ToLower lib (TrimPrefix (Ext name) dot)
  decide (ext ∈ s.allowedExts)

/-- The comparison function `listEntries` passes to `sort.Slice`. -/
def entryLess (lib : GoLib) (a b : fileEntry) : Bool :=
  if a.IsDir ≠ b.IsDir then a.IsDir
  else
    let left := ToLower lib a.Name
    let right := ToLower lib b.Name
    strLess left right

/-- The loop of `listEntries` over the directory entries. -/
def listLoop (lib : GoLib) (s : Server) (absDir : GoString) :
    List DirEntry → List fileEntry → Except GoError (List fileEntry)
  | [], entries => Except.ok entries
  | entry :: rest, entries =>
    match entry.info with
    | Except.error err => Except.error err
    | Except.ok info =>
      let absPath := Join [absDir, entry.name]
      match Rel s.absoluteRoot absPath with
      | Except.error err => Except.error err
      | Except.ok relative =>
        let relative := ToSlash relative
        if entry.isDir then
          listLoop lib s absDir rest (entries ++ [{
            Name := entry.name, RelativePath := relative,
            ModifyTime := info.modTime, Size := 0, IsDir := true }])
        else if !info.isRegular then listLoop lib s absDir rest entries
        else if !isAllowedExtension lib s entry.name then listLoop lib s absDir rest entries
        else
          listLoop lib s absDir rest (entries ++ [{
            Name := entry.name, RelativePath := relative,
            ModifyTime := info.modTime, Size := info.size, IsDir := false }])

/-- The method `(*Server).listEntries` of filesystem.go. -/
def listEntries (lib : GoLib) (os : OS) (s : Server) (absDir : GoString) :
    Except GoError (List fileEntry) :=
  match os.readDir absDir with
  | Except.error err =>
    if isNotExist err then Except.error errPathNotExist else Except.error err
  | Except.ok dirEntries =>
    match listLoop lib s absDir dirEntries [] with
    | Except.error err => Except.error err
    | Except.ok entries => Except.ok (lib.sortSlice (entryLess lib) entries)

/-! ## net/url -/

/-- The two escaping modes of package net/url the server uses. -/
inductive encoding where
  | encodePathSegment
  | encodeQueryComponent
  deriving DecidableEq, Repr

/-- Go's `shouldEscape` for the two modes. -/
def shouldEscape (c : Byte) (mode : encoding) : Bool :=
  if (97 ≤ c.val ∧ c.val ≤ 122) ∨ (65 ≤ c.val ∧ c.val ≤ 90) ∨ (48 ≤ c.val ∧ c.val ≤ 57) then false
  else if c = 45 ∨ c = 95 ∨ c = 46 ∨ c = 126 then false
  else if c = 36 ∨ c = 38 ∨ c = 43 ∨ c = 44 ∨ c = 47 ∨ c = 58 ∨ c = 59 ∨ c = 61 ∨ c = 63 ∨ c = 64 then
    match mode with
    | encoding.encodePathSegment => decide (c = 47 ∨ c = 59 ∨ c = 44 ∨ c = 63)
    | encoding.encodeQueryComponent => true
  else true

/-- The digit table `upperhex` of net/url. -/
def upperhex (n : Nat) : Byte :=
  if n < 10 then Fin.ofNat (48 + n) else Fin.ofNat (55 + n)

def ishex (c : Byte) : Bool :=
  decide ((48 ≤ c.val ∧ c.val ≤ 57) ∨ (97 ≤ c.val ∧ c.val ≤ 102) ∨ (65 ≤ c.val ∧ c.val ≤ 70))

def unhex (c : Byte) : Nat :=
  if 48 ≤ c.val ∧ c.val ≤ 57 then c.val - 48
  else if 97 ≤ c.val ∧ c.val ≤ 102 then c.val - 97 + 10
  else if 65 ≤ c.val ∧ c.val ≤ 70 then c.val - 65 + 10
  else 0

/-- One byte of Go's `escape`. -/
def escapeByte (mode : encoding) (c : Byte) : GoString :=
  if c = 32 ∧ mode = encoding.encodeQueryComponent then [43]
  else if shouldEscape c mode then [37, upperhex (c.val / 16), upperhex (c.val % 16)]
  else [c]

/-- Go's `escape` of net/url. -/
def escape (s : GoString) (mode : encoding) : GoString :=
  s.flatMap (escapeByte mode)

/-- Go's `url.PathEscape`. -/
def PathEscape (s : GoString) : GoString := escape s encoding.encodePathSegment

/-- Go's `url.QueryEscape`. -/
def QueryEscape (s : GoString) : GoString := escape s encoding.encodeQueryComponent

/-- Go's `unescape` of net/url; `none` is its `EscapeError`. -/
def unescape : GoString → encoding → Option GoString
  | [], _ => some []
  | c :: rest, mode =>
    if c = 37 then
      match rest with
      | a :: b :: rest' =>
        if ishex a && ishex b then
          (unescape rest' mode).map (fun t => Fin.ofNat (unhex a * 16 + unhex b) :: t)
        else none
      | _ => none
    else if c = 43 then
      (unescape rest mode).map
        (fun t => (if mode = encoding.encodeQueryComponent then (32 : Byte) else 43) :: t)
    else (unescape rest mode).map (fun t => c :: t)

/-- Go's `url.PathUnescape`. -/
def PathUnescape (s : GoString) : Option GoString := unescape s encoding.encodePathSegment

/-- Go's `url.QueryUnescape`. -/
def QueryUnescape (s : GoString) : Option GoString := unescape s encoding.encodeQueryComponent

/-! ## handlers.go, templates.go -/

/-- The type `entryView` of templates.go. -/
structure entryView where
  Name : GoString
  IsDir : Bool
  DirectoryHref : GoString
  FileHref : GoString
  ModifyTime : Int
  Size : Int
  deriving DecidableEq, Repr

/-- The type `indexPageData` of templates.go. -/
structure indexPageData where
  Title : GoString
  PathLabel : GoString
  Entries : List entryView
  deriving DecidableEq, Repr

/-- The call `handleIndex` or `respondError` makes on the gin context, with the
arguments it passes: `text status body` is `c.String(status, body)`, `abort status` is
`c.AbortWithStatus(status)`, and `html status data` is `c.HTML(status, "index", data)`.
What gin then writes for these arguments is not part of the model. -/
inductive Response where
  | text (status : Int) (body : GoString)
  | abort (status : Int)
  | html (status : Int) (data : indexPageData)
  deriving DecidableEq, Repr

/-- The function `buildFileHref` of handlers.go. -/
def buildFileHref (relative : GoString) : GoString :=
  let clean := TrimPrefix (ToSlash relative) (ascii "./")
  if clean = [] then ascii "/"
  else
    let parts := (Split clean).map PathEscape
    ascii "/" ++ joinSep parts

/-- The method `(*Server).buildEntryViews` of handlers.go. -/
def buildEntryViews (entries : List fileEntry) : List entryView :=
  entries.map (fun entry =>
    let view : entryView := {
      Name := entry.Name, IsDir := entry.IsDir, DirectoryHref := [], FileHref := [],
      ModifyTime := entry.ModifyTime, Size := entry.Size }
    if entry.IsDir then
      { view with DirectoryHref := ascii "?path=" ++ QueryEscape entry.RelativePath }
    else
      { view with FileHref := buildFileHref entry.RelativePath })

/-- The text of `err.Error()`. -/
def errorText : GoError → GoString
  | GoError.http _ message => message
  | GoError.notExist text => text
  | GoError.other text => text
  | GoError.wrap text _ => text

/-- What a handler does: the call it makes on the gin context and the lines it logs. -/
structure Outcome where
  response : Response
  log : List GoString
  deriving DecidableEq, Repr

/-- The method `(*Server).respondError` of handlers.go; `none` is a nil error. -/
def respondError (err : Option GoError) : Outcome :=
  match err with
  | none => { response := Response.abort StatusInternalServerError, log := [] }
  | some e =>
    match asHttpError e with
    | some (status, message) =>
      { response := Response.text status message,
        log := if StatusInternalServerError ≤ status
          then [ascii "server error: " ++ errorText e] else [] }
    | none =>
      { response := Response.text StatusInternalServerError (ascii "internal server error"),
        log := [ascii "unexpected error: " ++ errorText e] }

/-- The method `(*Server).handleIndex` of handlers.go; `query` is `c.Query("path")`. -/
def handleIndex (lib : GoLib) (os : OS) (s : Server) (query : GoString) : Outcome :=
  let trimmed := TrimSpace lib query
  let requestedPath := if trimmed = [] then dot else trimmed
  match resolvePath os.getwd s requestedPath with
  | Except.error err => respondError (some err)
  | Except.ok absolutePath =>
    match os.stat absolutePath with
    | Except.error err =>
      if isNotExist err then respondError (some errPathNotExist)
      else respondError (some err)
    | Except.ok info =>
      if !info.isDir then respondError (some errPathNotExist)
      else
        match listEntries lib os s absolutePath with
        | Except.error err => respondError (some err)
        | Except.ok entries =>
          let displayPath := if requestedPath ≠ dot then requestedPath else ascii "./"
          { response := Response.html StatusOK {
              Title := displayPath, PathLabel := displayPath,
              Entries := buildEntryViews entries },
            log := [] }


/-- A proper path element: not empty, not `.`, not `..`, and without separator. -/
def isName (e : GoString) : Bool :=
  decide (e ≠ [] ∧ e ≠ dot ∧ e ≠ dotdot ∧ Separator ∉ e)

/-- A directory path with its trailing separator: `root` itself when it is `/`. -/
def dirPrefix (root : GoString) : GoString :=
  if root = [Separator] then root else root ++ [Separator]

/-- The path `p` lies strictly below `root`: it is `root`, a separator (unless
`root` is `/`, which ends in one) and one or more proper path elements. -/
def strictlyBelow (root p : GoString) : Bool :=
  HasPrefix p (dirPrefix root) && (Split (p.drop (dirPrefix root).length)).all isName

/-! ## Example values -/

/-- A server whose library root is `/srv/books`, with the built-in extension set. -/
def exServer : Server :=
  { absoluteRoot := ascii "/srv/books", allowedExts := defaultAllowedExtSet }

/-- A working directory for the examples. -/
def exGetwd : Except GoError GoString := Except.ok (ascii "/home/reader")

/-! ## Definitions that follow the specification's words -/

/-- The substring after the last `.` of `name` (the empty string if no `.` is
present), in the words of the specification of the extension filter. -/
def afterLastDot (name : GoString) : GoString :=
  if (46 : Byte) ∈ name then (name.reverse.takeWhile (fun c => c ≠ 46)).reverse else []

/-! ## An instance of the library parameters -/

/-- Insertion sort with the comparison function of `sort.Slice`. -/
def insertionSortSlice (less : fileEntry → fileEntry → Bool) (xs : List fileEntry) :
    List fileEntry :=
  xs.insertionSort (fun a b => less b a = false)

/-- An instance of the library parameters, for the examples: the Unicode paths lower
and trim as the ASCII ones do, and `sort.Slice` is insertion sort. -/
def exLib : GoLib :=
  { mapToLower := fun s => s.map asciiLower
    trimFuncSpace := fun s => s
    trimRightFuncSpace := fun s => s
    sortSlice := insertionSortSlice }

/-- Whether the listing keeps a child, in the words of the specification: every
directory, and every regular file whose extension is allowed. -/
def retainedChild (lib : GoLib) (s : Server) (c : DirEntry) : Bool :=
  c.isDir ||
    (match c.info with
     | Except.ok info => info.isRegular && isAllowedExtension lib s c.name
     | Except.error _ => false)

/-- The `FileInfo` of an example file or directory. -/
def exInfo (isDir : Bool) (size : Int) : FileInfo :=
  { modTime := 1700000000, size := size, isRegular := !isDir, isDir := isDir }

/-- The children of the example library root, in the order `os.ReadDir` returns
them (sorted by file name). -/
def exChildren : List DirEntry :=
  [ { name := ascii "B.txt", isDir := false, info := Except.ok (exInfo false 12) },
    { name := ascii "SubDir", isDir := true, info := Except.ok (exInfo true 4096) },
    { name := ascii "a.txt", isDir := false, info := Except.ok (exInfo false 34) },
    { name := ascii "zzz.png", isDir := false, info := Except.ok (exInfo false 5678) } ]

/-- An example file system: the library root `/srv/books` holds `exChildren`, its
subdirectory `SubDir` is empty, and nothing else exists. -/
def exOS : OS :=
  { getwd := exGetwd
    stat := fun p =>
      if p = ascii "/srv/books" ∨ p = ascii "/srv/books/SubDir" then Except.ok (exInfo true 4096)
      else if p = ascii "/srv/books/zzz.png" then Except.ok (exInfo false 5678)
      else Except.error (GoError.notExist (ascii "stat: no such file or directory"))
    readDir := fun p =>
      if p = ascii "/srv/books" then Except.ok exChildren
      else if p = ascii "/srv/books/SubDir" then Except.ok []
      else Except.error (GoError.notExist (ascii "open: no such file or directory")) }

/-- The listing of the example library root. -/
def exListing : List fileEntry :=
  [ { Name := ascii "SubDir", RelativePath := ascii "SubDir", ModifyTime := 1700000000,
      Size := 0, IsDir := true },
    { Name := ascii "zzz.png", RelativePath := ascii "zzz.png", ModifyTime := 1700000000,
      Size := 5678, IsDir := false } ]

/-- Two files whose names differ only in letter case. -/
def exUpper : fileEntry :=
  { Name := ascii "A.png", RelativePath := ascii "A.png", ModifyTime := 1700000000,
    Size := 10, IsDir := false }

def exLower : fileEntry :=
  { Name := ascii "a.png", RelativePath := ascii "a.png", ModifyTime := 1700000000,
    Size := 20, IsDir := false }

/-- Percent-decoding of each segment of a path, with `url.PathUnescape`. -/
def unescapeAll : List GoString → Option (List GoString)
  | [] => some []
  | p :: ps =>
    match PathUnescape p, unescapeAll ps with
    | some q, some qs => some (q :: qs)
    | _, _ => none

/-- The way back from a file link, in the words of the round-trip property: the
leading `/` is removed, the rest is split on `/`, each segment is percent-decoded and
the segments are joined with `/` again. -/
def decodeFileHref (href : GoString) : Option GoString :=
  match href with
  | [] => none
  | c :: rest => if c = Separator then (unescapeAll (Split rest)).map joinSep else none

/-- The way back from a directory link: the prefix `?path=` is removed and the value
is query-unescaped. -/
def decodeDirectoryHref (href : GoString) : Option GoString :=
  if HasPrefix href (ascii "?path=") then QueryUnescape (href.drop (ascii "?path=").length)
  else none

/-! ## The model of the standard library on the examples of its documentation -/

/-- The model of `filepath.Clean` on cases of the package's documentation and tests. -/
theorem Clean_examples :
    Clean (ascii "") = ascii "." ∧
    Clean (ascii "abc/def/") = ascii "abc/def" ∧
    Clean (ascii "abc//def//ghi") = ascii "abc/def/ghi" ∧
    Clean (ascii "/./abc/def") = ascii "/abc/def" ∧
    Clean (ascii "abc/def/ghi/../jkl") = ascii "abc/def/jkl" ∧
    Clean (ascii "abc/def/../..") = ascii "." ∧
    Clean (ascii "/abc/def/../..") = ascii "/" ∧
    Clean (ascii "abc/def/../../..") = ascii ".." ∧
    Clean (ascii "/abc/def/../../..") = ascii "/" ∧
    Clean (ascii "abc/def/../../../ghi/jkl/../../../mno") = ascii "../../mno" ∧
    Clean (ascii "/../abc") = ascii "/abc" ∧
    Clean (ascii "abc/../../././../def") = ascii "../../def" ∧
    Clean (ascii "/../a/b/../././/c") = ascii "/a/c" := by
  decide

/-- The models of `filepath.Join`, `filepath.Rel` and `filepath.Ext` on the examples
of the package's documentation. -/
theorem filepath_examples :
    Join [ascii "a", ascii "b", ascii "c"] = ascii "a/b/c" ∧
    Join [ascii "a/b", ascii "/c"] = ascii "a/b/c" ∧
    Join [ascii "a/b", ascii "../../../xyz"] = ascii "../xyz" ∧
    Join [ascii "", ascii ""] = ascii "" ∧
    Rel (ascii "/a") (ascii "/a/b/c") = Except.ok (ascii "b/c") ∧
    Rel (ascii "/a") (ascii "/b/c") = Except.ok (ascii "../b/c") ∧
    Rel (ascii "/a") (ascii "./b/c") =
      Except.error (GoError.other (ascii "Rel: can't make ./b/c relative to /a")) ∧
    Rel (ascii "/a/b/c/d") (ascii "/a/b") = Except.ok (ascii "../..") ∧
    Rel (ascii "/a/b") (ascii "/a/b/.") = Except.ok (ascii ".") ∧
    Ext (ascii "index") = ascii "" ∧
    Ext (ascii "index.js") = ascii ".js" ∧
    Ext (ascii "main.test.js") = ascii ".js" := by
  decide

/-- The models of `url.PathEscape`, `url.QueryEscape`, `strings.TrimSpace` and
`strings.ToLower` on the examples of the packages' documentation. -/
theorem escape_examples :
    PathEscape (ascii "my/cool+blog&about,stuff") = ascii "my%2Fcool+blog&about%2Cstuff" ∧
    QueryEscape (ascii "my/cool+blog&about,stuff") = ascii "my%2Fcool%2Bblog%26about%2Cstuff" ∧
    QueryUnescape (ascii "my%2Fcool%2Bblog%26about%2Cstuff") =
      some (ascii "my/cool+blog&about,stuff") ∧
    PathUnescape (ascii "my%2Fcool+blog&about%2Cstuff") = some (ascii "my/cool+blog&about,stuff") ∧
    QueryUnescape (ascii "a+b%zz") = none ∧
    TrimSpace exLib (ascii " \t\n Hello, Gophers \n\t\r\n") = ascii "Hello, Gophers" ∧
    ToLower exLib (ascii "Gopher") = ascii "gopher" := by
  decide

theorem isName_iff (e : GoString) :
    isName e = true ↔ e ≠ [] ∧ e ≠ dot ∧ e ≠ dotdot ∧ Separator ∉ e := by
  simp [isName]

theorem not_sep_of_mem_Split (s : GoString) : ∀ e ∈ Split s, Separator ∉ e := by
  unfold Split List.splitOn
  induction s with
  | nil => simp
  | cons c rest ih =>
    rw [List.splitOnP_cons]
    split
    · rename_i h
      intro e he
      rcases List.mem_cons.1 he with rfl | he
      · simp
      · exact ih e he
    · rename_i h
      cases hsp : List.splitOnP (fun x => x == Separator) rest with
      | nil => simp [List.modifyHead]
      | cons hd tl =>
        rw [hsp] at ih
        intro e he
        simp only [List.modifyHead, List.mem_cons] at he
        rcases he with rfl | he
        · intro hmem
          rcases List.mem_cons.1 hmem with hc | hc
          · exact h (by simp [hc])
          · exact ih hd (by simp) hc
        · exact ih e (by simp [he])

theorem cleanStep_rooted_names (out : List GoString) (e : GoString)
    (hout : ∀ x ∈ out, isName x = true) (he : Separator ∉ e) :
    ∀ x ∈ cleanStep true out e, isName x = true := by
  unfold cleanStep
  split
  · exact hout
  · rename_i h1
    split
    · split
      · intro x hx
        exact hout x (List.mem_of_mem_tail hx)
      · simpa using hout
    · rename_i h2
      intro x hx
      rcases List.mem_cons.1 hx with rfl | hx
      · rw [isName_iff]
        push_neg at h1
        exact ⟨h1.1, h1.2, h2, he⟩
      · exact hout x hx

theorem foldl_cleanStep_rooted_names (elems out : List GoString)
    (hout : ∀ x ∈ out, isName x = true) (he : ∀ e ∈ elems, Separator ∉ e) :
    ∀ x ∈ elems.foldl (cleanStep true) out, isName x = true := by
  induction elems generalizing out with
  | nil => simpa using hout
  | cons e rest ih =>
    simp only [List.foldl_cons]
    apply ih
    · exact cleanStep_rooted_names out e hout (he e (by simp))
    · intro x hx
      exact he x (by simp [hx])

theorem cleanElems_rooted_names (s : GoString) :
    ∀ x ∈ cleanElems true (Split s), isName x = true := by
  intro x hx
  unfold cleanElems at hx
  rw [List.mem_reverse] at hx
  exact foldl_cleanStep_rooted_names (Split s) [] (by simp) (not_sep_of_mem_Split s) x hx

/-- A rooted path cleans to a separator followed by proper elements. -/
theorem Clean_rooted (p : GoString) (h : IsAbs p = true) :
    Clean p = Separator :: joinSep (cleanElems true (Split p)) := by
  cases p with
  | nil => simp [IsAbs, HasPrefix] at h
  | cons c rest =>
    have hc : Separator = c := by
      simpa [IsAbs, HasPrefix, List.isPrefixOf] using h
    subst hc
    simp [Clean]

theorem joinSep_nil : joinSep [] = [] := rfl

theorem joinSep_cons_cons (a b : GoString) (rest : List GoString) :
    joinSep (a :: b :: rest) = a ++ Separator :: joinSep (b :: rest) := by
  simp [joinSep, List.intercalate, List.intersperse]

theorem joinSep_singleton (a : GoString) : joinSep [a] = a := by
  simp [joinSep, List.intercalate, List.intersperse]

theorem joinSep_eq_nil_of_names (ns : List GoString) (hn : ∀ x ∈ ns, isName x = true)
    (h : joinSep ns = []) : ns = [] := by
  cases ns with
  | nil => rfl
  | cons a rest =>
    have ha := (isName_iff a).1 (hn a (by simp))
    cases rest with
    | nil => rw [joinSep_singleton] at h; exact absurd h ha.1
    | cons b rest' =>
      rw [joinSep_cons_cons] at h
      simp at h

theorem joinSep_append (as bs : List GoString) (ha : as ≠ []) (hb : bs ≠ []) :
    joinSep (as ++ bs) = joinSep as ++ Separator :: joinSep bs := by
  induction as with
  | nil => exact absurd rfl ha
  | cons a rest ih =>
    cases rest with
    | nil =>
      cases bs with
      | nil => exact absurd rfl hb
      | cons b bs' => simp [joinSep_cons_cons, joinSep_singleton]
    | cons a' rest' =>
      have := ih (by simp)
      simp only [List.cons_append] at this ⊢
      rw [joinSep_cons_cons, this, joinSep_cons_cons]
      simp

theorem Split_joinSep (ns : List GoString) (hn : ∀ x ∈ ns, isName x = true) (hne : ns ≠ []) :
    Split (joinSep ns) = ns := by
  unfold Split joinSep
  exact List.splitOn_intercalate ns Separator (fun l hl => ((isName_iff l).1 (hn l hl)).2.2.2) hne

theorem Split_sep_cons (s : GoString) : Split (Separator :: s) = [] :: Split s := by
  simp [Split, List.splitOn, List.splitOnP_cons]

theorem cleanStep_name (rooted : Bool) (out : List GoString) (e : GoString)
    (he : isName e = true) : cleanStep rooted out e = e :: out := by
  have h := (isName_iff e).1 he
  simp [cleanStep, h.1, h.2.1, h.2.2.1]

theorem foldl_cleanStep_names (rooted : Bool) (ns out : List GoString)
    (hn : ∀ x ∈ ns, isName x = true) :
    ns.foldl (cleanStep rooted) out = ns.reverse ++ out := by
  induction ns generalizing out with
  | nil => simp
  | cons e rest ih =>
    simp only [List.foldl_cons]
    rw [cleanStep_name rooted out e (hn e (by simp)), ih _ (fun x hx => hn x (by simp [hx]))]
    simp

theorem cleanStep_empty (rooted : Bool) (out : List GoString) :
    cleanStep rooted out [] = out := by
  simp [cleanStep]

theorem cleanElems_rooted_of_names (ns : List GoString) (hn : ∀ x ∈ ns, isName x = true) :
    cleanElems true (Split (Separator :: joinSep ns)) = ns := by
  rw [Split_sep_cons]
  unfold cleanElems
  simp only [List.foldl_cons, cleanStep_empty]
  by_cases hne : ns = []
  · subst hne
    simp [joinSep_nil, Split, cleanStep_empty]
  · rw [Split_joinSep ns hn hne, foldl_cleanStep_names true ns [] hn]
    simp

theorem IsAbs_sep_cons (s : GoString) : IsAbs (Separator :: s) = true := by
  simp [IsAbs, HasPrefix, List.isPrefixOf]

/-- Cleaning is the identity on a separator followed by proper elements. -/
theorem Clean_of_names (ns : List GoString) (hn : ∀ x ∈ ns, isName x = true) :
    Clean (Separator :: joinSep ns) = Separator :: joinSep ns := by
  rw [Clean_rooted _ (IsAbs_sep_cons _), cleanElems_rooted_of_names ns hn]

theorem relElems_of_names (ns : List GoString) (hn : ∀ x ∈ ns, isName x = true) :
    relElems (Separator :: joinSep ns) = ns := by
  unfold relElems
  simp only [List.head?_cons, if_true, List.tail_cons]
  by_cases hne : ns = []
  · subst hne; simp [joinSep_nil]
  · have : joinSep ns ≠ [] := fun h => hne (joinSep_eq_nil_of_names ns hn h)
    rw [if_neg this, Split_joinSep ns hn hne]

theorem relLoop_append_left (rs ts : List GoString) : relLoop rs (rs ++ ts) = ([], ts, false) := by
  induction rs with
  | nil => cases ts <;> simp [relLoop]
  | cons r rs ih => simp [relLoop, ih]

theorem relLoop_ne_nil (rs cs : List GoString) (h : ¬ rs <+: cs) :
    (relLoop rs cs).1 ≠ [] := by
  induction rs generalizing cs with
  | nil => exact absurd (List.nil_prefix) h
  | cons r rs ih =>
    cases cs with
    | nil => simp [relLoop]
    | cons c cs =>
      by_cases hc : c = r
      · subst hc
        simp only [relLoop, if_true]
        apply ih
        intro hp
        exact h ((List.prefix_cons_inj c).2 hp)
      · simp [relLoop, hc]

theorem relLoop_flag (rs cs : List GoString) (h : (relLoop rs cs).2.2 = true) : dotdot ∈ rs := by
  induction rs generalizing cs with
  | nil => cases cs <;> simp [relLoop] at h
  | cons r rs ih =>
    cases cs with
    | nil => simp [relLoop] at h
    | cons c cs =>
      by_cases hc : c = r
      · subst hc
        simp only [relLoop, if_true] at h
        exact List.mem_cons_of_mem _ (ih cs h)
      · simp [relLoop, hc] at h
        simp [h]

theorem dotdot_not_mem_names (ns : List GoString) (hn : ∀ x ∈ ns, isName x = true) :
    dotdot ∉ ns := fun h => ((isName_iff dotdot).1 (hn dotdot h)).2.2.1 rfl

theorem HasPrefix_joinSep_dotdot (rest : List GoString) :
    HasPrefix (joinSep (dotdot :: rest)) dotdot = true := by
  cases rest with
  | nil => simp [joinSep_singleton, HasPrefix]
  | cons b rest => simp [joinSep_cons_cons, HasPrefix, dotdot, List.isPrefixOf]

/-- The relative path from one cleaned absolute path to another. -/
theorem Rel_of_names (rs cs : List GoString) (hrs : ∀ x ∈ rs, isName x = true)
    (hcs : ∀ x ∈ cs, isName x = true) :
    Rel (Separator :: joinSep rs) (Separator :: joinSep cs) =
      if Separator :: joinSep cs = Separator :: joinSep rs then Except.ok dot
      else if (relLoop rs cs).1 ≠ []
        then Except.ok (joinSep ((relLoop rs cs).1.map (fun _ => dotdot) ++ (relLoop rs cs).2.1))
        else Except.ok (joinSep (relLoop rs cs).2.1) := by
  unfold Rel
  simp only [Clean_of_names rs hrs, Clean_of_names cs hcs]
  split
  · rfl
  · have hnd : ¬ (Separator :: joinSep rs = dot) := by simp [dot, Separator]
    simp only [if_neg hnd, List.head?_cons, ne_eq, not_true_eq_false, if_false,
      relElems_of_names rs hrs, relElems_of_names cs hcs]
    have hflag : (relLoop rs cs).2.2 = false := by
      cases hf : (relLoop rs cs).2.2 with
      | false => rfl
      | true => exact absurd (relLoop_flag rs cs hf) (dotdot_not_mem_names rs hrs)
    rcases hrl : relLoop rs cs with ⟨bs, ts, f⟩
    rw [hrl] at hflag
    simp only at hflag
    subst hflag
    simp

/-- Containment of a cleaned absolute path in a cleaned absolute root. -/
theorem isWithinRoot_of_names (getwd : Except GoError GoString) (s : Server)
    (rs cs : List GoString) (hrs : ∀ x ∈ rs, isName x = true)
    (hcs : ∀ x ∈ cs, isName x = true) (hroot : s.absoluteRoot = Separator :: joinSep rs) :
    isWithinRoot getwd s (Separator :: joinSep cs) =
      Except.ok (if Separator :: joinSep cs = Separator :: joinSep rs then true
        else if rs <+: cs then !HasPrefix (joinSep (cs.drop rs.length)) dotdot else false) := by
  unfold isWithinRoot Abs
  rw [IsAbs_sep_cons, if_pos rfl, Clean_of_names cs hcs]
  simp only [hroot, Rel_of_names rs cs hrs hcs]
  by_cases heq : Separator :: joinSep cs = Separator :: joinSep rs
  · simp [heq]
  · simp only [if_neg heq]
    by_cases hp : rs <+: cs
    · obtain ⟨ts, rfl⟩ := hp
      simp only [relLoop_append_left, ne_eq, not_true_eq_false, if_false, List.prefix_append, if_true,
        List.drop_left]
      split
      · rename_i hd
        have : HasPrefix (joinSep ts) dotdot = false := by
          rw [hd]; simp [HasPrefix, dot, dotdot, List.isPrefixOf]
        simp [this]
      · rfl
    · have hne := relLoop_ne_nil rs cs hp
      simp only [if_pos hne, if_neg hp]
      cases hb : (relLoop rs cs).1 with
      | nil => exact absurd hb hne
      | cons b bs =>
        simp only [List.map_cons, List.cons_append]
        have hpre := HasPrefix_joinSep_dotdot (bs.map (fun _ => dotdot) ++ (relLoop rs cs).2.1)
        have hnd : joinSep (dotdot :: (bs.map (fun _ => dotdot) ++ (relLoop rs cs).2.1)) ≠ dot := by
          intro h
          rw [h] at hpre
          simp [HasPrefix, dot, dotdot, List.isPrefixOf] at hpre
        rw [if_neg hnd, hpre]
        rfl



theorem Split_ne_nil (s : GoString) : Split s ≠ [] := by
  unfold Split List.splitOn
  exact List.splitOnP_ne_nil _ _

theorem Split_append_sep (a b : GoString) :
    Split (a ++ Separator :: b) = Split a ++ Split b := by
  induction a with
  | nil => rw [List.nil_append, Split_sep_cons]; simp [Split]
  | cons c a ih =>
    unfold Split List.splitOn at ih ⊢
    simp only [List.cons_append, List.splitOnP_cons]
    split
    · rw [ih]; simp
    · rw [ih]
      cases h : List.splitOnP (fun x => x == Separator) a with
      | nil => exact absurd h (List.splitOnP_ne_nil _ _)
      | cons hd tl => simp [List.modifyHead]

theorem root_names (root : GoString) (habs : IsAbs root = true) (hclean : Clean root = root) :
    ∃ rs : List GoString, (∀ x ∈ rs, isName x = true) ∧ root = Separator :: joinSep rs :=
  ⟨cleanElems true (Split root), cleanElems_rooted_names root,
    by rw [← Clean_rooted root habs, hclean]⟩

theorem Join_two (root x : GoString) (habs : IsAbs root = true) :
    Join [root, x] = Separator :: joinSep (cleanElems true (Split (root ++ Separator :: x))) := by
  cases root with
  | nil => simp [IsAbs, HasPrefix] at habs
  | cons c rest =>
    have hc : Separator = c := by
      simpa [IsAbs, HasPrefix, List.isPrefixOf] using habs
    subst hc
    have : Join [Separator :: rest, x] = Clean (joinSep [Separator :: rest, x]) := by
      simp [Join, List.dropWhile]
    rw [this, joinSep_cons_cons, joinSep_singleton, Clean_rooted _ (by simp [IsAbs_sep_cons])]

theorem Join_root_dot (root : GoString) (habs : IsAbs root = true) (hclean : Clean root = root) :
    Join [root, dot] = root := by
  obtain ⟨rs, hrs, rfl⟩ := root_names root habs hclean
  rw [Join_two _ _ habs, Split_append_sep]
  unfold cleanElems
  rw [List.foldl_append]
  have h1 := cleanElems_rooted_of_names rs hrs
  unfold cleanElems at h1
  have h2 : (Split (Separator :: joinSep rs)).foldl (cleanStep true) [] = rs.reverse := by
    rw [← List.reverse_inj, h1, List.reverse_reverse]
  rw [h2]
  simp [Split, dot, Separator, List.splitOn, List.splitOnP_cons, cleanStep]

theorem strictlyBelow_of_names (rs ts : List GoString) (hrs : ∀ x ∈ rs, isName x = true)
    (hts : ∀ x ∈ ts, isName x = true) (hne : ts ≠ []) :
    strictlyBelow (Separator :: joinSep rs) (Separator :: joinSep (rs ++ ts)) = true := by
  have hsplit := Split_joinSep ts hts hne
  have hall : (Split (joinSep ts)).all isName = true := by
    rw [hsplit, List.all_eq_true]; exact hts
  by_cases hr : rs = []
  · subst hr
    simp [strictlyBelow, dirPrefix, joinSep_nil, HasPrefix, List.isPrefixOf]
    simpa using hall
  · have hj : joinSep rs ≠ [] := fun h => hr (joinSep_eq_nil_of_names rs hrs h)
    have hd : dirPrefix (Separator :: joinSep rs) = (Separator :: joinSep rs) ++ [Separator] := by
      simp [dirPrefix, hj]
    have hp : Separator :: joinSep (rs ++ ts) =
        ((Separator :: joinSep rs) ++ [Separator]) ++ joinSep ts := by
      rw [joinSep_append rs ts hr hne]; simp
    rw [strictlyBelow, hd, hp, List.drop_left, hall]
    simp [HasPrefix]

/-- The result of `resolvePath` is the `PathNotExist` error or the root joined with
the cleaned request, and that path is then the root or strictly below it. -/
theorem resolvePath_cases (getwd : Except GoError GoString) (s : Server) (rel : GoString)
    (habs : IsAbs s.absoluteRoot = true) (hclean : Clean s.absoluteRoot = s.absoluteRoot) :
    resolvePath getwd s rel = Except.error errPathNotExist ∨
      (resolvePath getwd s rel = Except.ok (Join [s.absoluteRoot, Clean rel]) ∧
        (Join [s.absoluteRoot, Clean rel] = s.absoluteRoot ∨
          strictlyBelow s.absoluteRoot (Join [s.absoluteRoot, Clean rel]) = true)) := by
  by_cases hdot : Clean rel = dot
  · right
    rw [hdot, Join_root_dot _ habs hclean]
    exact ⟨by simp [resolvePath, hdot], Or.inl rfl⟩
  · obtain ⟨rs, hrs, hroot⟩ := root_names _ habs hclean
    have hcs := cleanElems_rooted_names (s.absoluteRoot ++ Separator :: Clean rel)
    have hj := Join_two s.absoluteRoot (Clean rel) habs
    have hw := isWithinRoot_of_names getwd s rs _ hrs hcs hroot
    rw [← hj, ← hroot] at hw
    unfold resolvePath
    simp only [if_neg hdot, hw]
    by_cases heq : Join [s.absoluteRoot, Clean rel] = s.absoluteRoot
    · right; simp [heq]
    · simp only [if_neg heq]
      by_cases hp : rs <+: cleanElems true (Split (s.absoluteRoot ++ Separator :: Clean rel))
      · simp only [if_pos hp]
        cases hpre : HasPrefix (joinSep ((cleanElems true
            (Split (s.absoluteRoot ++ Separator :: Clean rel))).drop rs.length)) dotdot with
        | true => left; simp
        | false =>
          right
          refine ⟨by simp, Or.inr ?_⟩
          obtain ⟨ts, hts⟩ := hp
          have htn : ∀ x ∈ ts, isName x = true := fun x hx => hcs x (by rw [← hts]; simp [hx])
          have hne : ts ≠ [] := by
            rintro rfl
            apply heq
            rw [hj, ← hts, hroot]; simp
          rw [hj, ← hts, hroot]
          exact strictlyBelow_of_names rs ts hrs htn hne
      · left; simp [hp]

/-! ## Claims on path resolution -/

/-- C1: for an absolute, cleaned root and every requested string, `resolvePath`
returns the `PathNotExist` error or a path that is the root itself or lies strictly
below it (the root, a separator unless the root is `/`, and proper path elements,
none of them `..`); and whenever the root joined with the cleaned request is neither
the root nor strictly below it, the result is exactly `errPathNotExist`. -/
theorem resolvePath_confined (getwd : Except GoError GoString) (s : Server) (rel : GoString)
    (habs : IsAbs s.absoluteRoot = true) (hclean : Clean s.absoluteRoot = s.absoluteRoot) :
    (resolvePath getwd s rel = Except.error errPathNotExist ∨
      ∃ p, resolvePath getwd s rel = Except.ok p ∧
        (p = s.absoluteRoot ∨ strictlyBelow s.absoluteRoot p = true)) ∧
    (¬ (Join [s.absoluteRoot, Clean rel] = s.absoluteRoot ∨
        strictlyBelow s.absoluteRoot (Join [s.absoluteRoot, Clean rel]) = true) →
      resolvePath getwd s rel = Except.error errPathNotExist) := by
  rcases resolvePath_cases getwd s rel habs hclean with h | ⟨h, hb⟩
  · exact ⟨Or.inl h, fun _ => h⟩
  · exact ⟨Or.inr ⟨_, h, hb⟩, fun hn => absurd hb hn⟩

/-- The confinement theorem at the root `/srv/books` and the request `a/../../etc/passwd`. -/
theorem resolvePath_confined_witness :
    IsAbs exServer.absoluteRoot = true ∧ Clean exServer.absoluteRoot = exServer.absoluteRoot ∧
    ((resolvePath exGetwd exServer (ascii "a/../../etc/passwd") = Except.error errPathNotExist ∨
      ∃ p, resolvePath exGetwd exServer (ascii "a/../../etc/passwd") = Except.ok p ∧
        (p = exServer.absoluteRoot ∨ strictlyBelow exServer.absoluteRoot p = true)) ∧
    (¬ (Join [exServer.absoluteRoot, Clean (ascii "a/../../etc/passwd")] = exServer.absoluteRoot ∨
        strictlyBelow exServer.absoluteRoot
          (Join [exServer.absoluteRoot, Clean (ascii "a/../../etc/passwd")]) = true) →
      resolvePath exGetwd exServer (ascii "a/../../etc/passwd") = Except.error errPathNotExist)) :=
  ⟨by decide, by decide,
    resolvePath_confined exGetwd exServer (ascii "a/../../etc/passwd") (by decide) (by decide)⟩

/-- C2 at the failing input: below the root `/srv/books` the child `..foo` is a cleaned
request, root joined with it is `/srv/books/..foo`, which lies strictly below the
root, and its path relative to the root is `..foo`, which is neither `..` nor begins
with `../`; yet `isWithinRoot` reports it as not contained and `resolvePath` answers
with the `PathNotExist` error. -/
theorem resolvePath_rejects_dotdot_name :
    Clean (ascii "..foo") = ascii "..foo" ∧
    Join [exServer.absoluteRoot, Clean (ascii "..foo")] = ascii "/srv/books/..foo" ∧
    strictlyBelow exServer.absoluteRoot (ascii "/srv/books/..foo") = true ∧
    Rel exServer.absoluteRoot (ascii "/srv/books/..foo") = Except.ok (ascii "..foo") ∧
    (ascii "..foo" ≠ dotdot ∧ HasPrefix (ascii "..foo") (ascii "../") = false) ∧
    isWithinRoot exGetwd exServer (ascii "/srv/books/..foo") = Except.ok false ∧
    resolvePath exGetwd exServer (ascii "..foo") = Except.error errPathNotExist := by
  decide

/-- C6: every request that cleans to `.` resolves to the root itself, without error;
the empty string, `.`, `./` and `a/..` are such requests. -/
theorem resolvePath_root (getwd : Except GoError GoString) (s : Server) :
    (∀ rel, Clean rel = dot → resolvePath getwd s rel = Except.ok s.absoluteRoot) ∧
    resolvePath getwd s (ascii "") = Except.ok s.absoluteRoot ∧
    resolvePath getwd s (ascii ".") = Except.ok s.absoluteRoot ∧
    resolvePath getwd s (ascii "./") = Except.ok s.absoluteRoot ∧
    resolvePath getwd s (ascii "a/..") = Except.ok s.absoluteRoot := by
  have h : ∀ rel, Clean rel = dot → resolvePath getwd s rel = Except.ok s.absoluteRoot := by
    intro rel hrel
    simp [resolvePath, hrel]
  exact ⟨h, h _ (by decide), h _ (by decide), h _ (by decide), h _ (by decide)⟩

/-! ## The extension filter -/

theorem extScan_eq (rev suffix : GoString) (hsep : Separator ∉ rev) :
    extScan rev suffix =
      if (46 : Byte) ∈ rev then
        46 :: ((rev.takeWhile (fun c => c ≠ 46)).reverse ++ suffix)
      else [] := by
  induction rev generalizing suffix with
  | nil => simp [extScan]
  | cons c rest ih =>
    have hc : c ≠ Separator := fun h => hsep (by simp [h])
    have hrest : Separator ∉ rest := fun h => hsep (List.mem_cons_of_mem _ h)
    by_cases h46 : c = 46
    · subst h46
      simp [extScan, Separator]
    · have h46' : ¬ (46 : Byte) = c := fun h => h46 h.symm
      rw [extScan, if_neg hc, if_neg h46, ih _ hrest]
      simp [List.takeWhile, h46, h46']

/-- On a base name `filepath.Ext` without its leading dot is the substring after the
last dot. -/
theorem TrimPrefix_Ext (name : GoString) (hsep : Separator ∉ name) :
    TrimPrefix (Ext name) dot = afterLastDot name := by
  unfold Ext afterLastDot
  rw [extScan_eq _ _ (by simpa using hsep)]
  by_cases h : (46 : Byte) ∈ name
  · simp [h, TrimPrefix, HasPrefix, dot, List.isPrefixOf]
  · simp [h, TrimPrefix, HasPrefix, dot, List.isPrefixOf]

set_option maxRecDepth 100000 in
theorem asciiLower_eq_dot (c : Byte) : asciiLower c = 46 ↔ c = 46 := by
  revert c; decide

set_option maxRecDepth 100000 in
theorem asciiLower_eq_sep (c : Byte) : asciiLower c = Separator ↔ c = Separator := by
  revert c; decide

set_option maxRecDepth 100000 in
theorem asciiLower_lt (c : Byte) : (asciiLower c).val < 128 ↔ c.val < 128 := by
  revert c; decide

theorem extScan_map (rev suffix : GoString) :
    extScan (rev.map asciiLower) (suffix.map asciiLower) = (extScan rev suffix).map asciiLower := by
  induction rev generalizing suffix with
  | nil => simp [extScan]
  | cons c rest ih =>
    simp only [List.map_cons, extScan, asciiLower_eq_sep, asciiLower_eq_dot]
    split
    · rfl
    · split
      · simp
      · rw [← ih]; simp

theorem Ext_map (name : GoString) :
    Ext (name.map asciiLower) = (Ext name).map asciiLower := by
  unfold Ext
  rw [← List.map_reverse]
  exact extScan_map name.reverse []

theorem TrimPrefix_dot_map (e : GoString) :
    TrimPrefix (e.map asciiLower) dot = (TrimPrefix e dot).map asciiLower := by
  cases e with
  | nil => simp [TrimPrefix, HasPrefix, dot]
  | cons c rest =>
    by_cases h : c = 46
    · subst h
      have h3 : asciiLower 46 = 46 := by decide
      simp [TrimPrefix, HasPrefix, dot, List.isPrefixOf, h3]
    · have h1 : ¬ (46 : Byte) = c := fun hh => h hh.symm
      have h2 : ¬ (46 : Byte) = asciiLower c := fun hh => h ((asciiLower_eq_dot c).1 hh.symm)
      simp [TrimPrefix, HasPrefix, dot, List.isPrefixOf, h1, h2]

theorem all_ascii_map (e : GoString) :
    (e.map asciiLower).all (fun c => decide (c.val < 128)) =
      e.all (fun c => decide (c.val < 128)) := by
  induction e with
  | nil => rfl
  | cons c rest ih =>
    simp only [List.map_cons, List.all_cons, ih]
    congr 1
    simp [asciiLower_lt]

/-- `strings.ToLower` does not see the case of ASCII letters. -/
theorem ToLower_congr (lib : GoLib) (hlib : LowerIgnoresAsciiCase lib.mapToLower)
    (e e' : GoString) (h : e.map asciiLower = e'.map asciiLower) :
    ToLower lib e = ToLower lib e' := by
  unfold ToLower
  have hall := all_ascii_map e
  rw [h, all_ascii_map e'] at hall
  rw [← hall]
  split
  · exact h
  · exact hlib e e' h

theorem ToLower_ascii (lib : GoLib) (e : GoString)
    (h : e.all (fun c => decide (c.val < 128)) = true) : ToLower lib e = e.map asciiLower := by
  simp [ToLower, h]

theorem extScan_no_dot (rev suffix : GoString) (h : (46 : Byte) ∉ rev) :
    extScan rev suffix = [] := by
  induction rev generalizing suffix with
  | nil => rfl
  | cons c rest ih =>
    have hc : c ≠ 46 := fun hh => h (by simp [hh])
    have hr : (46 : Byte) ∉ rest := fun hh => h (List.mem_cons_of_mem _ hh)
    simp [extScan, hc, ih _ hr]

theorem exLib_lower : LowerIgnoresAsciiCase exLib.mapToLower := fun _ _ h => h

/-- C5: with the built-in extension set, a base name is allowed exactly when the
substring after its last `.`, lower-cased, is in the set; two names that differ only
in the case of ASCII letters get the same answer, for every library when the
extension is ASCII and otherwise for a Unicode mapping of `strings.ToLower` that
ignores ASCII case; `PHOTO.JPG` is allowed; a name without `.` is never allowed,
`archive` among them. -/
theorem isAllowedExtension_spec (lib : GoLib) (root : GoString) :
    (∀ name, Separator ∉ name →
      (isAllowedExtension lib ⟨root, defaultAllowedExtSet⟩ name = true ↔
        ToLower lib (afterLastDot name) ∈ defaultAllowedExtSet)) ∧
    (LowerIgnoresAsciiCase lib.mapToLower →
      ∀ name name', name.map asciiLower = name'.map asciiLower →
        isAllowedExtension lib ⟨root, defaultAllowedExtSet⟩ name =
          isAllowedExtension lib ⟨root, defaultAllowedExtSet⟩ name') ∧
    (∀ name name', name.map asciiLower = name'.map asciiLower →
      (TrimPrefix (Ext name) dot).all (fun c => decide (c.val < 128)) = true →
        isAllowedExtension lib ⟨root, defaultAllowedExtSet⟩ name =
          isAllowedExtension lib ⟨root, defaultAllowedExtSet⟩ name') ∧
    isAllowedExtension lib ⟨root, defaultAllowedExtSet⟩ (ascii "PHOTO.JPG") = true ∧
    (∀ name, (46 : Byte) ∉ name →
      isAllowedExtension lib ⟨root, defaultAllowedExtSet⟩ name = false) ∧
    isAllowedExtension lib ⟨root, defaultAllowedExtSet⟩ (ascii "archive") = false := by
  have hnodot : ∀ name, (46 : Byte) ∉ name →
      isAllowedExtension lib ⟨root, defaultAllowedExtSet⟩ name = false := by
    intro name h
    have hext : Ext name = [] := extScan_no_dot _ _ (by simpa using h)
    have hl : ToLower lib (TrimPrefix [] dot) = [] := by
      rw [ToLower_ascii lib _ (by decide)]; decide
    simp only [isAllowedExtension, hext, hl]
    decide
  have hext : ∀ name name' : GoString, name.map asciiLower = name'.map asciiLower →
      (TrimPrefix (Ext name) dot).map asciiLower =
        (TrimPrefix (Ext name') dot).map asciiLower := by
    intro name name' h
    rw [← TrimPrefix_dot_map, ← TrimPrefix_dot_map, ← Ext_map, ← Ext_map, h]
  refine ⟨?_, ?_, ?_, ?_, hnodot, hnodot _ (by decide)⟩
  · intro name hsep
    simp [isAllowedExtension, TrimPrefix_Ext name hsep]
  · intro hlib name name' h
    simp only [isAllowedExtension, ToLower_congr lib hlib _ _ (hext name name' h)]
  · intro name name' h hascii
    have hascii' : (TrimPrefix (Ext name') dot).all (fun c => decide (c.val < 128)) = true := by
      rw [← all_ascii_map, ← hext name name' h, all_ascii_map]
      exact hascii
    simp only [isAllowedExtension, ToLower_ascii lib _ hascii, ToLower_ascii lib _ hascii',
      hext name name' h]
  · have ht : TrimPrefix (Ext (ascii "PHOTO.JPG")) dot = ascii "JPG" := by decide
    simp only [isAllowedExtension, ht]
    rw [ToLower_ascii lib _ (by decide)]
    decide

/-- The extension filter with the example library: `Photo.Jpg` and `PHOTO.JPG` differ
only in letter case and both are allowed. -/
theorem isAllowedExtension_spec_witness :
    LowerIgnoresAsciiCase exLib.mapToLower ∧
    (ascii "Photo.Jpg").map asciiLower = (ascii "PHOTO.JPG").map asciiLower ∧
    isAllowedExtension exLib exServer (ascii "Photo.Jpg") =
      isAllowedExtension exLib exServer (ascii "PHOTO.JPG") ∧
    isAllowedExtension exLib exServer (ascii "PHOTO.JPG") = true :=
  ⟨exLib_lower, by decide,
    (isAllowedExtension_spec exLib (ascii "/srv/books")).2.1 exLib_lower _ _ (by decide),
    (isAllowedExtension_spec exLib (ascii "/srv/books")).2.2.2.1⟩

/-! ## String order and the comparison function of the listing -/

theorem strLess_iff_lex (a b : GoString) :
    strLess a b = true ↔ List.Lex (fun x y : Byte => x < y) a b := by
  induction a generalizing b with
  | nil =>
    cases b with
    | nil => simp [strLess, List.Lex.not_nil_right]
    | cons y ys => simp [strLess, List.Lex.nil]
  | cons x xs ih =>
    cases b with
    | nil => simp [strLess, List.Lex.not_nil_right]
    | cons y ys =>
      rw [strLess]
      by_cases hxy : x < y
      · simp [hxy, List.Lex.rel hxy]
      · by_cases hyx : y < x
        · simp only [if_neg hxy, if_pos hyx]
          constructor
          · intro h; exact absurd h (by simp)
          · intro h
            cases h with
            | cons h' => exact absurd hyx (lt_irrefl _)
            | rel h' => exact absurd h' hxy
        · have hEq : x = y := le_antisymm (not_lt.1 hyx) (not_lt.1 hxy)
          subst hEq
          simp only [if_neg hxy, ih]
          constructor
          · intro h; exact List.Lex.cons h
          · intro h
            cases h with
            | cons h' => exact h'
            | rel h' => exact absurd h' hxy

theorem strLess_irrefl (a : GoString) : strLess a a = false := by
  cases h : strLess a a with
  | false => rfl
  | true => exact absurd ((strLess_iff_lex a a).1 h) (irrefl_of (List.Lex (fun x y : Byte => x < y)) a)

theorem strLess_asymm (a b : GoString) (h : strLess a b = true) : strLess b a = false := by
  cases h' : strLess b a with
  | false => rfl
  | true =>
    exact absurd ((strLess_iff_lex b a).1 h')
      (asymm_of (List.Lex (fun x y : Byte => x < y)) ((strLess_iff_lex a b).1 h))

theorem strLess_trans (a b c : GoString) (h1 : strLess a b = true) (h2 : strLess b c = true) :
    strLess a c = true :=
  (strLess_iff_lex a c).2
    (trans_of (List.Lex (fun x y : Byte => x < y))
      ((strLess_iff_lex a b).1 h1) ((strLess_iff_lex b c).1 h2))

/-- Two strings neither of which is less than the other are equal. -/
theorem strLess_total (a b : GoString) (h1 : strLess a b = false) (h2 : strLess b a = false) :
    a = b := by
  rcases trichotomous_of (List.Lex (fun x y : Byte => x < y)) a b with h | h | h
  · rw [(strLess_iff_lex a b).2 h] at h1; exact absurd h1 (by simp)
  · exact h
  · rw [(strLess_iff_lex b a).2 h] at h2; exact absurd h2 (by simp)

theorem strLess_connected (a b c : GoString) (h : strLess a c = true) :
    strLess a b = true ∨ strLess b c = true := by
  cases hab : strLess a b with
  | true => exact Or.inl rfl
  | false =>
    right
    cases hbc : strLess b c with
    | true => rfl
    | false =>
      cases hba : strLess b a with
      | true =>
        have hbc' := strLess_trans b a c hba h
        rw [hbc] at hbc'; exact absurd hbc' (by simp)
      | false =>
        have : a = b := strLess_total a b hab hba
        subst this
        rw [h] at hbc; exact absurd hbc (by simp)

theorem entryLess_asymm (lib : GoLib) (a b : fileEntry) (h : entryLess lib a b = true) :
    entryLess lib b a = false := by
  unfold entryLess at h ⊢
  by_cases hk : a.IsDir = b.IsDir
  · have hk' : ¬ b.IsDir ≠ a.IsDir := by simp [hk]
    have hk'' : ¬ a.IsDir ≠ b.IsDir := by simp [hk]
    rw [if_neg hk''] at h
    rw [if_neg hk']
    exact strLess_asymm _ _ h
  · have hk' : b.IsDir ≠ a.IsDir := fun hh => hk hh.symm
    rw [if_pos hk] at h
    rw [if_pos hk']
    cases hb : b.IsDir with
    | false => rfl
    | true => rw [h, hb] at hk; exact absurd rfl hk

theorem entryLess_connected (lib : GoLib) (a b c : fileEntry) (h : entryLess lib a c = true) :
    entryLess lib a b = true ∨ entryLess lib b c = true := by
  unfold entryLess at h ⊢
  cases ha : a.IsDir <;> cases hb : b.IsDir <;> cases hc : c.IsDir <;>
    simp only [ha, hb, hc, ne_eq, not_true_eq_false, not_false_eq_true, if_true, if_false,
      Bool.false_eq_true, Bool.true_eq_false, or_true, true_or, or_false, false_or,
      reduceCtorEq] at h ⊢
  · exact strLess_connected _ _ _ h
  · exact strLess_connected _ _ _ h

theorem entryLess_irrefl (lib : GoLib) (a : fileEntry) : entryLess lib a a = false := by
  cases h : entryLess lib a a with
  | false => rfl
  | true => have := entryLess_asymm lib a a h; rw [h] at this; exact absurd this (by simp)

theorem entryLess_trans (lib : GoLib) (a b c : fileEntry) (h1 : entryLess lib a b = true)
    (h2 : entryLess lib b c = true) : entryLess lib a c = true := by
  rcases entryLess_connected lib a c b h1 with h | h
  · exact h
  · rw [entryLess_asymm lib b c h2] at h; exact absurd h (by simp)

/-- Insertion sort meets the contract of `sort.Slice`. -/
theorem insertionSortSlice_contract : SortContract insertionSortSlice := by
  intro less hasymm hconn xs
  haveI : IsTotal fileEntry (fun a b => less b a = false) := ⟨by
    intro a b
    cases h : less b a with
    | false => exact Or.inl rfl
    | true => exact Or.inr (hasymm b a h)⟩
  haveI : IsTrans fileEntry (fun a b => less b a = false) := ⟨by
    intro a b c hab hbc
    cases h : less c a with
    | false => rfl
    | true =>
      rcases hconn c b a h with h' | h'
      · rw [hbc] at h'; exact absurd h' (by simp)
      · rw [hab] at h'; exact absurd h' (by simp)⟩
  exact ⟨List.perm_insertionSort _ xs, List.sorted_insertionSort _ xs⟩

theorem sortSlice_entryLess (lib : GoLib) (hsort : SortContract lib.sortSlice)
    (xs : List fileEntry) :
    (lib.sortSlice (entryLess lib) xs).Perm xs ∧
      (lib.sortSlice (entryLess lib) xs).Pairwise (fun a b => entryLess lib b a = false) :=
  hsort (entryLess lib) (entryLess_asymm lib) (entryLess_connected lib) xs

/-! ## The listing -/

theorem listLoop_keys (lib : GoLib) (s : Server) (absDir : GoString)
    (children : List DirEntry) (acc out : List fileEntry)
    (h : listLoop lib s absDir children acc = Except.ok out) :
    out.map (fun e => (e.Name, e.IsDir)) =
      acc.map (fun e => (e.Name, e.IsDir)) ++
        (children.filter (retainedChild lib s)).map (fun c => (c.name, c.isDir)) := by
  induction children generalizing acc with
  | nil =>
    simp only [listLoop, Except.ok.injEq] at h
    simp [h]
  | cons c rest ih =>
    rw [listLoop] at h
    cases hinfo : c.info with
    | error err => rw [hinfo] at h; exact absurd h (by simp)
    | ok info =>
      rw [hinfo] at h
      simp only at h
      cases hrel : Rel s.absoluteRoot (Join [absDir, c.name]) with
      | error err => rw [hrel] at h; exact absurd h (by simp)
      | ok relative =>
        rw [hrel] at h
        simp only at h
        by_cases hd : c.isDir = true
        · rw [if_pos hd] at h
          rw [ih _ h]
          simp [List.filter, retainedChild, hd]
        · rw [if_neg hd] at h
          have hd' : c.isDir = false := by simpa using hd
          by_cases hr : info.isRegular = true
          · have hr' : ¬ ((!info.isRegular) = true) := by simp [hr]
            rw [if_neg hr'] at h
            by_cases ha : isAllowedExtension lib s c.name = true
            · have ha' : ¬ ((!isAllowedExtension lib s c.name) = true) := by simp [ha]
              rw [if_neg ha'] at h
              rw [ih _ h]
              simp [List.filter, retainedChild, hd', hinfo, hr, ha]
            · have ha' : (!isAllowedExtension lib s c.name) = true := by simpa using ha
              rw [if_pos ha'] at h
              rw [ih _ h]
              have : isAllowedExtension lib s c.name = false := by simpa using ha
              simp [List.filter, retainedChild, hd', hinfo, hr, this]
          · have hr' : (!info.isRegular) = true := by simpa using hr
            rw [if_pos hr'] at h
            rw [ih _ h]
            have : info.isRegular = false := by simpa using hr
            simp [List.filter, retainedChild, hd', hinfo, this]

theorem Rel_ok_of_abs (root absDir name : GoString) (habs : IsAbs root = true)
    (hclean : Clean root = root) (hdir : IsAbs absDir = true) :
    ∃ r, Rel root (Join [absDir, name]) = Except.ok r := by
  obtain ⟨rs, hrs, rfl⟩ := root_names root habs hclean
  rw [Join_two absDir name hdir,
    Rel_of_names rs _ hrs (cleanElems_rooted_names (absDir ++ Separator :: name))]
  split
  · exact ⟨_, rfl⟩
  · split
    · exact ⟨_, rfl⟩
    · exact ⟨_, rfl⟩

theorem listLoop_ok (lib : GoLib) (s : Server) (absDir : GoString)
    (habs : IsAbs s.absoluteRoot = true) (hclean : Clean s.absoluteRoot = s.absoluteRoot)
    (hdir : IsAbs absDir = true) (children : List DirEntry)
    (hinfo : ∀ c ∈ children, ∃ info, c.info = Except.ok info) (acc : List fileEntry) :
    ∃ out, listLoop lib s absDir children acc = Except.ok out := by
  induction children generalizing acc with
  | nil => exact ⟨acc, rfl⟩
  | cons c rest ih =>
    obtain ⟨info, hi⟩ := hinfo c (by simp)
    obtain ⟨r, hr⟩ := Rel_ok_of_abs s.absoluteRoot absDir c.name habs hclean hdir
    have ih' := ih (fun c' hc' => hinfo c' (List.mem_cons_of_mem _ hc'))
    rw [listLoop, hi]
    simp only [hr]
    split
    · exact ih' _
    · split
      · exact ih' _
      · split
        · exact ih' _
        · exact ih' _

/-- The order of a successful listing, in terms of the comparison function. -/
theorem listEntries_pairwise (lib : GoLib) (hsort : SortContract lib.sortSlice) (os : OS)
    (s : Server) (absDir : GoString) (out : List fileEntry)
    (h : listEntries lib os s absDir = Except.ok out) :
    out.Pairwise (fun a b => entryLess lib b a = false) := by
  unfold listEntries at h
  cases hread : os.readDir absDir with
  | error err =>
    rw [hread] at h
    simp only at h
    split at h <;> exact absurd h (by simp)
  | ok children =>
    rw [hread] at h
    simp only at h
    cases hloop : listLoop lib s absDir children [] with
    | error err => rw [hloop] at h; exact absurd h (by simp)
    | ok entries =>
      rw [hloop] at h
      simp only [Except.ok.injEq] at h
      rw [← h]
      exact (sortSlice_entryLess lib hsort entries).2

/-- The entries of a successful listing are the retained children, each once. -/
theorem listEntries_keys (lib : GoLib) (hsort : SortContract lib.sortSlice) (os : OS)
    (s : Server) (absDir : GoString) (children : List DirEntry)
    (hread : os.readDir absDir = Except.ok children) (out : List fileEntry)
    (h : listEntries lib os s absDir = Except.ok out) :
    (out.map (fun e => (e.Name, e.IsDir))).Perm
      ((children.filter (retainedChild lib s)).map (fun c => (c.name, c.isDir))) := by
  unfold listEntries at h
  rw [hread] at h
  simp only at h
  cases hloop : listLoop lib s absDir children [] with
  | error err => rw [hloop] at h; exact absurd h (by simp)
  | ok entries =>
    rw [hloop] at h
    simp only [Except.ok.injEq] at h
    rw [← h]
    have hk := listLoop_keys lib s absDir children [] entries hloop
    simp only [List.map_nil, List.nil_append] at hk
    rw [← hk]
    exact (sortSlice_entryLess lib hsort entries).1.map _

theorem listEntries_ok (lib : GoLib) (os : OS) (s : Server) (absDir : GoString)
    (children : List DirEntry) (hread : os.readDir absDir = Except.ok children)
    (habs : IsAbs s.absoluteRoot = true) (hclean : Clean s.absoluteRoot = s.absoluteRoot)
    (hdir : IsAbs absDir = true) (hinfo : ∀ c ∈ children, ∃ info, c.info = Except.ok info) :
    ∃ out, listEntries lib os s absDir = Except.ok out := by
  obtain ⟨entries, he⟩ := listLoop_ok lib s absDir habs hclean hdir children hinfo []
  exact ⟨lib.sortSlice (entryLess lib) entries, by simp [listEntries, hread, he]⟩

theorem isAllowedExtension_ascii (lib : GoLib) (s : Server) (name : GoString)
    (h : (TrimPrefix (Ext name) dot).all (fun c => decide (c.val < 128)) = true) :
    isAllowedExtension lib s name = isAllowedExtension exLib s name := by
  simp only [isAllowedExtension, ToLower_ascii lib _ h, ToLower_ascii exLib _ h]

theorem retainedChild_ascii (lib : GoLib) (s : Server) (c : DirEntry)
    (h : (TrimPrefix (Ext c.name) dot).all (fun c => decide (c.val < 128)) = true) :
    retainedChild lib s c = retainedChild exLib s c := by
  unfold retainedChild
  cases c.info with
  | error err => rfl
  | ok info => simp only [isAllowedExtension_ascii lib s c.name h]

theorem exChildren_retained (lib : GoLib) :
    (exChildren.filter (retainedChild lib exServer)).map (fun c => (c.name, c.isDir)) =
      [(ascii "SubDir", true), (ascii "zzz.png", false)] := by
  have h : exChildren.filter (retainedChild lib exServer) =
      exChildren.filter (retainedChild exLib exServer) := by
    apply List.filter_congr
    intro c hc
    apply retainedChild_ascii
    revert c
    decide
  rw [h]
  decide

theorem perm_pair {α : Type} (l : List α) (x y : α) (h : l.Perm [x, y]) :
    l = [x, y] ∨ l = [y, x] := by
  have hlen := h.length_eq
  match l, hlen with
  | [a, b], _ =>
    have ha : a ∈ [x, y] := h.subset (by simp)
    have hx : x ∈ [a, b] := h.symm.subset (by simp)
    have hy : y ∈ [a, b] := h.symm.subset (by simp)
    have hb : b ∈ [x, y] := h.subset (by simp)
    simp only [List.mem_cons, List.mem_singleton, List.not_mem_nil, or_false] at ha hb hx hy
    rcases ha with rfl | rfl
    · rcases hy with rfl | rfl
      · rcases hb with rfl | rfl <;> simp
      · simp
    · rcases hx with rfl | rfl
      · rcases hb with rfl | rfl <;> simp
      · simp

/-- C3: when the directory is read as `children`, a successful listing holds exactly
the retained children, each once, by name and kind: every directory, and every
regular file with an allowed extension; for an absolute cleaned root and an absolute
directory whose entries can all be examined the listing succeeds; and the children
`B.txt`, `SubDir` (a directory), `a.txt`, `zzz.png` yield exactly `SubDir`, `zzz.png`. -/
theorem listEntries_retained (lib : GoLib) (hsort : SortContract lib.sortSlice) (os : OS)
    (s : Server) (absDir : GoString) (children : List DirEntry)
    (hread : os.readDir absDir = Except.ok children) :
    (∀ out, listEntries lib os s absDir = Except.ok out →
      (out.map (fun e => (e.Name, e.IsDir))).Perm
        ((children.filter (retainedChild lib s)).map (fun c => (c.name, c.isDir)))) ∧
    (IsAbs s.absoluteRoot = true → Clean s.absoluteRoot = s.absoluteRoot →
      IsAbs absDir = true → (∀ c ∈ children, ∃ info, c.info = Except.ok info) →
      ∃ out, listEntries lib os s absDir = Except.ok out) ∧
    (∃ out, listEntries lib exOS exServer (ascii "/srv/books") = Except.ok out ∧
      out.map (fun e => (e.Name, e.IsDir)) =
        [(ascii "SubDir", true), (ascii "zzz.png", false)]) := by
  refine ⟨fun out h => listEntries_keys lib hsort os s absDir children hread out h,
    fun habs hclean hdir hinfo =>
      listEntries_ok lib os s absDir children hread habs hclean hdir hinfo, ?_⟩
  have hr : exOS.readDir (ascii "/srv/books") = Except.ok exChildren := by decide
  obtain ⟨out, hout⟩ := listEntries_ok lib exOS exServer (ascii "/srv/books") exChildren hr
    (by decide) (by decide) (by decide) (by
      intro c hc
      simp only [exChildren, List.mem_cons, List.mem_singleton, List.not_mem_nil, or_false] at hc
      rcases hc with rfl | rfl | rfl | rfl <;> exact ⟨_, rfl⟩)
  refine ⟨out, hout, ?_⟩
  have hk := listEntries_keys lib hsort exOS exServer _ exChildren hr out hout
  rw [exChildren_retained] at hk
  rcases perm_pair _ _ _ hk with h | h
  · exact h
  · exfalso
    have hp := listEntries_pairwise lib hsort exOS exServer _ out hout
    cases out with
    | nil => simp at h
    | cons a t =>
      cases t with
      | nil => simp at h
      | cons b t' =>
        cases t' with
        | cons c t'' => simp at h
        | nil =>
          simp only [List.map_cons, List.map_nil, List.cons.injEq, Prod.mk.injEq, and_true] at h
          obtain ⟨⟨_, ha⟩, ⟨_, hb⟩⟩ := h
          have hab := List.rel_of_pairwise_cons hp (List.mem_singleton_self b)
          simp [entryLess, ha, hb] at hab

/-- The listing theorem on the example file system with insertion sort. -/
theorem listEntries_retained_witness :
    SortContract exLib.sortSlice ∧
    exOS.readDir (ascii "/srv/books") = Except.ok exChildren ∧
    listEntries exLib exOS exServer (ascii "/srv/books") = Except.ok exListing ∧
    (exListing.map (fun e => (e.Name, e.IsDir))).Perm
      ((exChildren.filter (retainedChild exLib exServer)).map (fun c => (c.name, c.isDir))) :=
  ⟨insertionSortSlice_contract, by decide, by decide,
    (listEntries_retained exLib insertionSortSlice_contract exOS exServer (ascii "/srv/books")
      exChildren (by decide)).1 exListing (by decide)⟩

/-- C4: a successful listing is ordered directories first, then by lower-cased name:
no directory comes after a file, and of two entries of the same kind the later one's
lower-cased name is not less than the earlier one's. -/
theorem listEntries_sorted (lib : GoLib) (hsort : SortContract lib.sortSlice) (os : OS)
    (s : Server) (absDir : GoString) (out : List fileEntry)
    (h : listEntries lib os s absDir = Except.ok out) :
    out.Pairwise (fun a b =>
      (b.IsDir = true → a.IsDir = true) ∧
      (a.IsDir = b.IsDir → strLess (ToLower lib b.Name) (ToLower lib a.Name) = false)) := by
  refine (listEntries_pairwise lib hsort os s absDir out h).imp ?_
  intro a b hba
  unfold entryLess at hba
  constructor
  · intro hb
    cases ha : a.IsDir with
    | true => rfl
    | false => simp [ha, hb] at hba
  · intro hk
    simpa [hk] using hba

/-- The order theorem on the example file system with insertion sort. -/
theorem listEntries_sorted_witness :
    SortContract exLib.sortSlice ∧
    listEntries exLib exOS exServer (ascii "/srv/books") = Except.ok exListing ∧
    exListing.Pairwise (fun a b =>
      (b.IsDir = true → a.IsDir = true) ∧
      (a.IsDir = b.IsDir → strLess (ToLower exLib b.Name) (ToLower exLib a.Name) = false)) :=
  ⟨insertionSortSlice_contract, by decide,
    listEntries_sorted exLib insertionSortSlice_contract exOS exServer (ascii "/srv/books")
      exListing (by decide)⟩

theorem entryLess_same (lib : GoLib) (a b : fileEntry) (hk : a.IsDir = b.IsDir) :
    entryLess lib a b = strLess (ToLower lib a.Name) (ToLower lib b.Name) := by
  simp [entryLess, hk]

theorem sorted_perm_unique (less : fileEntry → fileEntry → Bool) (l₁ l₂ : List fileEntry)
    (hp : l₁.Perm l₂)
    (h1 : l₁.Pairwise (fun a b => less b a = false))
    (h2 : l₂.Pairwise (fun a b => less b a = false))
    (htot : ∀ a ∈ l₁, ∀ b ∈ l₁, a ≠ b → less a b = true ∨ less b a = true) : l₁ = l₂ := by
  induction l₁ generalizing l₂ with
  | nil => exact hp.nil_eq
  | cons a t₁ ih =>
    cases l₂ with
    | nil => exact absurd hp.length_eq (by simp)
    | cons b t₂ =>
      have hab : a = b := by
        by_contra hne
        have hb : b ∈ t₁ := by
          have : b ∈ a :: t₁ := hp.symm.subset (by simp)
          rcases List.mem_cons.1 this with h | h
          · exact absurd h.symm hne
          · exact h
        have ha : a ∈ t₂ := by
          have : a ∈ b :: t₂ := hp.subset (by simp)
          rcases List.mem_cons.1 this with h | h
          · exact absurd h hne
          · exact h
        have hba := List.rel_of_pairwise_cons h1 hb
        have hab := List.rel_of_pairwise_cons h2 ha
        rcases htot a (by simp) b (List.mem_cons_of_mem _ hb) hne with h | h
        · rw [hab] at h; exact absurd h (by simp)
        · rw [hba] at h; exact absurd h (by simp)
      subst hab
      have ht := ih t₂ (List.Perm.cons_inv hp) (List.Pairwise.of_cons h1) (List.Pairwise.of_cons h2)
        (fun x hx y hy hne => htot x (List.mem_cons_of_mem _ hx) y (List.mem_cons_of_mem _ hy) hne)
      rw [ht]

/-- C9 as stated fails: `A.png` and `a.png` are two files with distinct names, and
neither strictly precedes the other, whatever the library's Unicode mapping is; both
arrangements of the two are sorted for the comparison function. -/
theorem entryLess_tie_counterexample :
    exUpper.Name ≠ exLower.Name ∧ exUpper.IsDir = exLower.IsDir ∧
    (¬ ∃ lib : GoLib, entryLess lib exUpper exLower = true ∨ entryLess lib exLower exUpper = true) ∧
    entryLess exLib exUpper exLower = false ∧ entryLess exLib exLower exUpper = false ∧
    [exUpper, exLower].Pairwise (fun a b => entryLess exLib b a = false) ∧
    [exLower, exUpper].Pairwise (fun a b => entryLess exLib b a = false) := by
  have h : ∀ lib : GoLib, entryLess lib exUpper exLower = false ∧
      entryLess lib exLower exUpper = false := by
    intro lib
    have h1 : ToLower lib exUpper.Name = ascii "a.png" := by
      rw [ToLower_ascii lib _ (by decide)]; decide
    have h2 : ToLower lib exLower.Name = ascii "a.png" := by
      rw [ToLower_ascii lib _ (by decide)]; decide
    rw [entryLess_same lib exUpper exLower (by decide),
      entryLess_same lib exLower exUpper (by decide), h1, h2]
    exact ⟨strLess_irrefl _, strLess_irrefl _⟩
  refine ⟨by decide, by decide, ?_, (h exLib).1, (h exLib).2, ?_, ?_⟩
  · rintro ⟨lib, hl | hl⟩
    · rw [(h lib).1] at hl; exact absurd hl (by simp)
    · rw [(h lib).2] at hl; exact absurd hl (by simp)
  · simp [(h exLib).1, (h exLib).2]
  · simp [(h exLib).1, (h exLib).2]

/-- C9 as amended: the comparison function of the listing is a strict weak order
(irreflexive, asymmetric, transitive); a directory strictly precedes a file; of two
entries of the same kind whose lower-cased names differ exactly one strictly
precedes the other; two entries of the same kind with the same lower-cased name are
tied; and a set of entries in which no two entries are tied has only one sorted
arrangement. -/
theorem entryLess_strict_weak (lib : GoLib) :
    (∀ a, entryLess lib a a = false) ∧
    (∀ a b, entryLess lib a b = true → entryLess lib b a = false) ∧
    (∀ a b c, entryLess lib a b = true → entryLess lib b c = true → entryLess lib a c = true) ∧
    (∀ a b, a.IsDir = true → b.IsDir = false →
      entryLess lib a b = true ∧ entryLess lib b a = false) ∧
    (∀ a b, a.IsDir = b.IsDir → ToLower lib a.Name ≠ ToLower lib b.Name →
      (entryLess lib a b = true ∧ entryLess lib b a = false) ∨
      (entryLess lib b a = true ∧ entryLess lib a b = false)) ∧
    (∀ a b, a.IsDir = b.IsDir → ToLower lib a.Name = ToLower lib b.Name →
      entryLess lib a b = false ∧ entryLess lib b a = false) ∧
    (∀ l₁ l₂ : List fileEntry, l₁.Perm l₂ →
      l₁.Pairwise (fun a b => entryLess lib b a = false) →
      l₂.Pairwise (fun a b => entryLess lib b a = false) →
      (∀ a ∈ l₁, ∀ b ∈ l₁, a ≠ b →
        a.IsDir ≠ b.IsDir ∨ ToLower lib a.Name ≠ ToLower lib b.Name) →
      l₁ = l₂) := by
  have hsame := entryLess_same lib
  have hdiff : ∀ a b : fileEntry, a.IsDir = true → b.IsDir = false →
      entryLess lib a b = true ∧ entryLess lib b a = false := by
    intro a b ha hb
    simp [entryLess, ha, hb]
  have hne : ∀ a b : fileEntry, a.IsDir = b.IsDir → ToLower lib a.Name ≠ ToLower lib b.Name →
      (entryLess lib a b = true ∧ entryLess lib b a = false) ∨
      (entryLess lib b a = true ∧ entryLess lib a b = false) := by
    intro a b hk hn
    cases hab : entryLess lib a b with
    | true => exact Or.inl ⟨rfl, entryLess_asymm lib a b hab⟩
    | false =>
      right
      cases hba : entryLess lib b a with
      | true => exact ⟨rfl, rfl⟩
      | false =>
        rw [hsame a b hk] at hab
        rw [hsame b a hk.symm] at hba
        exact absurd (strLess_total _ _ hab hba) hn
  refine ⟨entryLess_irrefl lib, entryLess_asymm lib, entryLess_trans lib, hdiff, hne, ?_, ?_⟩
  · intro a b hk hn
    rw [hsame a b hk, hsame b a hk.symm, hn]
    exact ⟨strLess_irrefl _, strLess_irrefl _⟩
  · intro l₁ l₂ hp h1 h2 hdist
    apply sorted_perm_unique (entryLess lib) l₁ l₂ hp h1 h2
    intro a ha b hb hab
    rcases hdist a ha b hb hab with hk | hn
    · cases hda : a.IsDir with
      | true =>
        have hdb : b.IsDir = false := by
          cases hdb : b.IsDir with
          | false => rfl
          | true => rw [hda, hdb] at hk; exact absurd rfl hk
        exact Or.inl (hdiff a b hda hdb).1
      | false =>
        have hdb : b.IsDir = true := by
          cases hdb : b.IsDir with
          | true => rfl
          | false => rw [hda, hdb] at hk; exact absurd rfl hk
        exact Or.inr (hdiff b a hdb hda).1
    · by_cases hk : a.IsDir = b.IsDir
      · rcases hne a b hk hn with h | h
        · exact Or.inl h.1
        · exact Or.inr h.1
      · cases hda : a.IsDir with
        | true =>
          have hdb : b.IsDir = false := by
            cases hdb : b.IsDir with
            | false => rfl
            | true => rw [hda, hdb] at hk; exact absurd rfl hk
          exact Or.inl (hdiff a b hda hdb).1
        | false =>
          have hdb : b.IsDir = true := by
            cases hdb : b.IsDir with
            | true => rfl
            | false => rw [hda, hdb] at hk; exact absurd rfl hk
          exact Or.inr (hdiff b a hdb hda).1

/-! ## Percent-encoding -/

set_option maxRecDepth 1000000 in
theorem hex_roundtrip (c : Byte) :
    ishex (upperhex (c.val / 16)) = true ∧ ishex (upperhex (c.val % 16)) = true ∧
    (Fin.ofNat (unhex (upperhex (c.val / 16)) * 16 + unhex (upperhex (c.val % 16))) : Byte) = c := by
  revert c; decide

set_option maxRecDepth 1000000 in
theorem not_escaped (c : Byte) (mode : encoding) (h : shouldEscape c mode = false) :
    c ≠ 37 ∧ (c = 43 → mode = encoding.encodePathSegment) := by
  revert c; cases mode <;> decide

set_option maxRecDepth 1000000 in
theorem escapeByte_no_sep (c : Byte) : Separator ∉ escapeByte encoding.encodePathSegment c := by
  revert c; decide

theorem unescape_plus (mode : encoding) (rest : GoString) :
    unescape (43 :: rest) mode = (unescape rest mode).map
      (fun t => (if mode = encoding.encodeQueryComponent then (32 : Byte) else 43) :: t) := by
  rcases rest with _ | ⟨a, _ | ⟨b, r⟩⟩ <;> simp [unescape]

theorem unescape_other (mode : encoding) (c : Byte) (rest : GoString) (h1 : c ≠ 37)
    (h2 : c ≠ 43) :
    unescape (c :: rest) mode = (unescape rest mode).map (fun t => c :: t) := by
  rcases rest with _ | ⟨a, _ | ⟨b, r⟩⟩ <;> simp [unescape, h1, h2]

theorem unescape_pct (mode : encoding) (a b : Byte) (rest : GoString)
    (ha : ishex a = true) (hb : ishex b = true) :
    unescape (37 :: a :: b :: rest) mode =
      (unescape rest mode).map (fun t => Fin.ofNat (unhex a * 16 + unhex b) :: t) := by
  rw [unescape]
  simp [ha, hb]

theorem unescape_escapeByte (mode : encoding) (c : Byte) (rest : GoString) :
    unescape (escapeByte mode c ++ rest) mode = (unescape rest mode).map (fun t => c :: t) := by
  unfold escapeByte
  by_cases h1 : c = 32 ∧ mode = encoding.encodeQueryComponent
  · obtain ⟨rfl, rfl⟩ := h1
    simp [unescape_plus]
  · rw [if_neg h1]
    cases hs : shouldEscape c mode with
    | true =>
      obtain ⟨ha, hb, hc⟩ := hex_roundtrip c
      simp only [if_true, List.cons_append, List.nil_append]
      rw [unescape_pct mode _ _ rest ha hb, hc]
    | false =>
      obtain ⟨h37, h43⟩ := not_escaped c mode hs
      by_cases hp : c = 43
      · have hm := h43 hp
        subst hp
        subst hm
        simp [unescape_plus]
      · simp [unescape_other mode c rest h37 hp]

/-- Unescaping undoes escaping, in both modes. -/
theorem unescape_escape (mode : encoding) (s : GoString) :
    unescape (escape s mode) mode = some s := by
  induction s with
  | nil => simp [escape, unescape]
  | cons c rest ih =>
    have : escape (c :: rest) mode = escapeByte mode c ++ escape rest mode := by
      simp [escape]
    rw [this, unescape_escapeByte, ih]
    rfl

theorem PathEscape_no_sep (s : GoString) : Separator ∉ PathEscape s := by
  unfold PathEscape escape
  intro h
  rw [List.mem_flatMap] at h
  obtain ⟨c, _, hc⟩ := h
  exact escapeByte_no_sep c hc

theorem unescapeAll_map (parts : List GoString) :
    unescapeAll (parts.map PathEscape) = some parts := by
  induction parts with
  | nil => rfl
  | cons p ps ih =>
    simp only [List.map_cons, unescapeAll, ih, PathUnescape, PathEscape, unescape_escape]

/-- The way back from a file link gives the path without a leading `./`. -/
theorem decodeFileHref_buildFileHref (relative : GoString) :
    decodeFileHref (buildFileHref relative) = some (TrimPrefix relative (ascii "./")) := by
  unfold buildFileHref ToSlash
  by_cases h : TrimPrefix relative (ascii "./") = []
  · simp only [h, if_true]
    decide
  · simp only [if_neg h]
    have hsplit : Split (joinSep ((Split (TrimPrefix relative (ascii "./"))).map PathEscape)) =
        (Split (TrimPrefix relative (ascii "./"))).map PathEscape := by
      unfold Split joinSep
      apply List.splitOn_intercalate
      · intro l hl
        obtain ⟨p, _, rfl⟩ := List.mem_map.1 hl
        exact PathEscape_no_sep p
      · intro hnil
        exact Split_ne_nil _ (List.map_eq_nil_iff.1 hnil)
    have hj : joinSep (Split (TrimPrefix relative (ascii "./"))) = TrimPrefix relative (ascii "./") := by
      unfold Split joinSep
      exact List.intercalate_splitOn _ Separator
    have ha : ascii "/" = [Separator] := by decide
    rw [ha]
    simp only [List.singleton_append, decodeFileHref, if_true, hsplit, unescapeAll_map,
      Option.map_some', hj]

theorem decodeDirectoryHref_QueryEscape (relative : GoString) :
    decodeDirectoryHref (ascii "?path=" ++ QueryEscape relative) = some relative := by
  unfold decodeDirectoryHref
  have hp : HasPrefix (ascii "?path=" ++ QueryEscape relative) (ascii "?path=") = true := by
    simp [HasPrefix]
  rw [if_pos hp, List.drop_left]
  exact unescape_escape _ relative

/-! ## Claims on the handlers -/

/-- C7 as stated fails: the file link of the relative path `./a b.png` is
`/a%20b.png`, and the way back from it gives `a b.png`, not the original path. -/
theorem buildFileHref_roundtrip_counterexample :
    buildFileHref (ascii "./a b.png") = ascii "/a%20b.png" ∧
    decodeFileHref (buildFileHref (ascii "./a b.png")) = some (ascii "a b.png") ∧
    decodeFileHref (buildFileHref (ascii "./a b.png")) ≠ some (ascii "./a b.png") := by
  decide

/-- C7 as amended: for every relative path that does not begin with `./`, the file
link, once its leading `/` is removed, split on `/`, each segment percent-decoded and
the segments joined with `/` again, gives back the path; for every relative path it
gives back the path without a leading `./`; and every view built by
`buildEntryViews` keeps the entry's name and kind, a directory's link query-unescapes
to the entry's relative path once `?path=` is removed, and a file's link is
`buildFileHref` of the entry's relative path. -/
theorem link_roundtrip :
    (∀ relative, HasPrefix relative (ascii "./") = false →
      decodeFileHref (buildFileHref relative) = some relative) ∧
    (∀ relative,
      decodeFileHref (buildFileHref relative) = some (TrimPrefix relative (ascii "./"))) ∧
    (∀ entries, List.Forall₂
      (fun e v => v.Name = e.Name ∧ v.IsDir = e.IsDir ∧
        (e.IsDir = true → decodeDirectoryHref v.DirectoryHref = some e.RelativePath) ∧
        (e.IsDir = false → v.FileHref = buildFileHref e.RelativePath))
      entries (buildEntryViews entries)) := by
  refine ⟨?_, decodeFileHref_buildFileHref, ?_⟩
  · intro relative h
    rw [decodeFileHref_buildFileHref]
    simp [TrimPrefix, h]
  · intro entries
    unfold buildEntryViews
    rw [List.forall₂_map_right_iff]
    apply List.forall₂_same.2
    intro e _
    cases hd : e.IsDir with
    | true => simp [decodeDirectoryHref_QueryEscape]
    | false => simp

/-- The round trip for the path `dir one/a b#c?.png` and the views of the example
listing. -/
theorem link_roundtrip_witness :
    HasPrefix (ascii "dir one/a b#c?.png") (ascii "./") = false ∧
    buildFileHref (ascii "dir one/a b#c?.png") = ascii "/dir%20one/a%20b%23c%3F.png" ∧
    decodeFileHref (buildFileHref (ascii "dir one/a b#c?.png")) =
      some (ascii "dir one/a b#c?.png") :=
  ⟨by decide, by decide, link_roundtrip.1 (ascii "dir one/a b#c?.png") (by decide)⟩

/-- C8 as stated fails: for an `httpError` other than `errPathNotExist`, here one with
status 503, `respondError` hands the error's own status and message to `c.String`,
not status 500 and the constant body. -/
theorem respondError_http_counterexample :
    GoError.http 503 (ascii "cannot read /srv/books") ≠ errPathNotExist ∧
    (respondError (some (GoError.http 503 (ascii "cannot read /srv/books")))).response =
      Response.text 503 (ascii "cannot read /srv/books") ∧
    (respondError (some (GoError.http 503 (ascii "cannot read /srv/books")))).response ≠
      Response.text StatusInternalServerError (ascii "internal server error") := by
  decide

/-- C8 as amended: for the `PathNotExist` error, also when wrapped, `respondError`
answers with status 400 and the message `Path does not exist`; for every error whose
chain holds no `httpError` it answers with status 500 and the constant body
`internal server error`, so any two such errors get the same response, whatever
their text; for an error whose chain holds an `httpError` it hands that
`httpError`'s own status and message to `c.String`, whatever they are. -/
theorem respondError_mapping :
    (respondError (some errPathNotExist)).response =
      Response.text StatusBadRequest (ascii "Path does not exist") ∧
    (∀ e, asHttpError e = asHttpError errPathNotExist →
      (respondError (some e)).response =
        Response.text StatusBadRequest (ascii "Path does not exist")) ∧
    (∀ text, (respondError (some (GoError.wrap text errPathNotExist))).response =
      Response.text StatusBadRequest (ascii "Path does not exist")) ∧
    (∀ e, asHttpError e = none →
      (respondError (some e)).response =
        Response.text StatusInternalServerError (ascii "internal server error")) ∧
    (∀ e₁ e₂, asHttpError e₁ = none → asHttpError e₂ = none →
      (respondError (some e₁)).response = (respondError (some e₂)).response) ∧
    (∀ e status message, asHttpError e = some (status, message) →
      (respondError (some e)).response = Response.text status message) := by
  have hnone : ∀ e, asHttpError e = none →
      (respondError (some e)).response =
        Response.text StatusInternalServerError (ascii "internal server error") := by
    intro e h
    simp [respondError, h]
  have hsome : ∀ e status message, asHttpError e = some (status, message) →
      (respondError (some e)).response = Response.text status message := by
    intro e status message h
    simp [respondError, h]
  refine ⟨by decide, ?_, ?_, hnone, ?_, hsome⟩
  · intro e h
    exact hsome e _ _ (by rw [h]; rfl)
  · intro text
    exact hsome _ _ _ rfl
  · intro e₁ e₂ h₁ h₂
    rw [hnone e₁ h₁, hnone e₂ h₂]

/-- The mapping at a wrapped `PathNotExist` error and at two file-system errors with
different texts. -/
theorem respondError_mapping_witness :
    (respondError (some (GoError.wrap (ascii "resolve: Path does not exist")
      errPathNotExist))).response =
      Response.text StatusBadRequest (ascii "Path does not exist") ∧
    (respondError (some (GoError.other (ascii "open /srv/books/x: permission denied")))).response =
      (respondError (some (GoError.other (ascii "read /srv/books/y: input/output error")))).response :=
  ⟨respondError_mapping.2.2.1 _, respondError_mapping.2.2.2.2.1 _ _ rfl rfl⟩

theorem respondError_not_html (err : Option GoError) (status : Int) (data : indexPageData) :
    (respondError err).response ≠ Response.html status data := by
  cases err with
  | none => simp [respondError]
  | some e =>
    cases h : asHttpError e with
    | none => simp [respondError, h]
    | some p => obtain ⟨st, msg⟩ := p; simp [respondError, h]

theorem TrimSpace_blank (lib : GoLib) (query : GoString)
    (h : query.all isAsciiSpace = true) : TrimSpace lib query = [] := by
  induction query with
  | nil => rfl
  | cons c rest ih =>
    simp only [List.all_cons, Bool.and_eq_true] at h
    have hc : ¬ 128 ≤ c.val := by
      have h1 := h.1
      simp only [isAsciiSpace, decide_eq_true_eq] at h1
      rcases h1 with rfl | rfl | rfl | rfl | rfl | rfl <;> decide
    rw [TrimSpace, if_neg hc, if_pos h.1]
    exact ih h.2

/-- C10 as stated fails: the request `a/..` cleans to `.`, the root, yet its listing
is labelled `a/..`, not `./`; the request `SubDir/` cleans to `SubDir`, yet its
listing is labelled `SubDir/`. -/
theorem handleIndex_label_counterexample :
    Clean (ascii "a/..") = dot ∧
    (handleIndex exLib exOS exServer (ascii "a/..")).response =
      Response.html StatusOK
        { Title := ascii "a/..", PathLabel := ascii "a/..",
          Entries := buildEntryViews exListing } ∧
    Clean (ascii "SubDir/") = ascii "SubDir" ∧
    (handleIndex exLib exOS exServer (ascii "SubDir/")).response =
      Response.html StatusOK
        { Title := ascii "SubDir/", PathLabel := ascii "SubDir/", Entries := [] } := by
  decide

/-- C10 as amended: the title and the label of a successful listing response are the
`path` parameter with surrounding white space trimmed, not cleaned any further, with
the empty string and `.` rendered as `./`; so an empty or blank `path` is labelled
`./`. -/
theorem handleIndex_label (lib : GoLib) (os : OS) (s : Server) (query : GoString)
    (status : Int) (data : indexPageData)
    (h : (handleIndex lib os s query).response = Response.html status data) :
    status = StatusOK ∧ data.Title = data.PathLabel ∧
    data.PathLabel =
      (if TrimSpace lib query = [] ∨ TrimSpace lib query = dot then ascii "./"
       else TrimSpace lib query) ∧
    (query.all isAsciiSpace = true → data.PathLabel = ascii "./") := by
  have key : status = StatusOK ∧ data.Title = data.PathLabel ∧
      data.PathLabel =
        (if TrimSpace lib query = [] ∨ TrimSpace lib query = dot then ascii "./"
         else TrimSpace lib query) := by
    unfold handleIndex at h
    simp only at h
    split at h
    · exact absurd h (respondError_not_html _ _ _)
    · split at h
      · split at h <;> exact absurd h (respondError_not_html _ _ _)
      · split at h
        · exact absurd h (respondError_not_html _ _ _)
        · split at h
          · exact absurd h (respondError_not_html _ _ _)
          · simp only [Response.html.injEq] at h
            obtain ⟨hs, hd⟩ := h
            subst hd
            refine ⟨hs.symm, rfl, ?_⟩
            by_cases h1 : TrimSpace lib query = []
            · simp [h1]
            · by_cases h2 : TrimSpace lib query = dot
              · simp [h2]
              · simp [h1, h2]
  refine ⟨key.1, key.2.1, key.2.2, ?_⟩
  intro hb
  rw [key.2.2, TrimSpace_blank lib query hb]
  simp

/-- The label theorem on the example file system: a blank `path` lists the root with
the label `./`, and `  SubDir ` lists the subdirectory with the label `SubDir`. -/
theorem handleIndex_label_witness :
    (handleIndex exLib exOS exServer (ascii "  ")).response =
      Response.html StatusOK
        { Title := ascii "./", PathLabel := ascii "./", Entries := buildEntryViews exListing } ∧
    (StatusOK = StatusOK ∧ ascii "./" = ascii "./" ∧
      ascii "./" =
        (if TrimSpace exLib (ascii "  ") = [] ∨ TrimSpace exLib (ascii "  ") = dot
         then ascii "./" else TrimSpace exLib (ascii "  ")) ∧
      ((ascii "  ").all isAsciiSpace = true → ascii "./" = ascii "./")) :=
  ⟨by decide,
    handleIndex_label exLib exOS exServer (ascii "  ") StatusOK
      { Title := ascii "./", PathLabel := ascii "./", Entries := buildEntryViews exListing }
      (by decide)⟩


end ComicGlass
